import Mathlib

/-!
Verification development for the clause-level contract diff and risk-scoring
engine (`src/services/diff_engine.py`).  The Python source is embedded
shallowly: strings are `String`, Python floats are modelled as exact
rationals `ℚ`, Python `re` scans and `difflib.SequenceMatcher` are modelled
as executable Lean functions, and the one place the source can raise
(`float('')` / division by zero inside `extract_amounts` consumers) is
modelled with `Option`.

Rational arithmetic is made kernel-reducible so that concrete runs of the
engine can be checked by `decide`.
-/

set_option allowUnsafeReducibility true

attribute [semireducible] Rat.mul Rat.add Rat.sub Rat.inv Rat.ofScientific

/-- Python whitespace characters recognised by `str.strip`, `\s` and
`str.split` for the ASCII range (the engine's inputs are plain text). -/
def pySpace (c : Char) : Bool :=
  c = ' ' || c = '\t' || c = '\n' || c = '\r' || c = '\x0b' || c = '\x0c'

/-- Model of Python `str.lower` (ASCII case folding). -/
def pyLower (s : String) : String := ⟨s.toList.map Char.toLower⟩

/-- Model of Python `str.strip()`: drop leading and trailing whitespace. -/
def pyStrip (s : String) : String :=
  ⟨(s.toList.dropWhile pySpace).reverse.dropWhile pySpace |>.reverse⟩

/-- Model of Python substring containment `needle in hay` on char lists. -/
def listContains : List Char → List Char → Bool
  | hay, needle =>
    match hay with
    | [] => needle.isEmpty
    | _ :: t => needle.isPrefixOf hay || listContains t needle

/-- Model of Python substring containment `sub in hay` on strings. -/
def strContains (hay sub : String) : Bool :=
  listContains hay.toList sub.toList

/-- Model of Python `str.isupper()` for ASCII text: at least one cased
character and no lowercase cased character. -/
def pyIsUpper (l : List Char) : Bool :=
  l.any (fun c => c.isAlpha) && l.all (fun c => !c.isAlpha || c.isUpper)

/-- Model of Python `str.title()` for ASCII text: a letter is uppercased
when the previous character is not a letter, lowercased otherwise. -/
def pyTitleAux : Bool → List Char → List Char
  | _, [] => []
  | prevAlpha, c :: rest =>
    (if c.isAlpha then (if prevAlpha then c.toLower else c.toUpper) else c)
      :: pyTitleAux c.isAlpha rest

/-- Model of Python `str.title()` on strings. -/
def pyTitle (s : String) : String := ⟨pyTitleAux false s.toList⟩

/-- Value of a nonempty decimal digit string, as `int()` computes it. -/
def digitsToNat (ds : List Char) : Nat :=
  ds.foldl (fun acc c => 10 * acc + (c.toNat - '0'.toNat)) 0

/-- Python truthy `a or b` on strings: `a` when nonempty, else `b`. -/
def pyOr (a b : String) : String := if a = "" then b else a

/-- Model of Python `text.split('\n')` on character lists. -/
def splitNl : List Char → List (List Char)
  | [] => [[]]
  | c :: rest =>
    let r := splitNl rest
    if c = '\n' then [] :: r else (c :: r.headD []) :: r.tail

/-- Model of Python `str.endswith(c)` for a single character. -/
def listEndsWith (l : List Char) (c : Char) : Bool := l.getLast? = some c

/-- A clause record as produced by `segment_clauses`: a `title`, the
accumulated `content`, and the `number` captured from a numbered heading
(empty when absent). -/
structure Clause where
  title : String
  content : String
  number : String
  deriving DecidableEq

/-- Recogniser for the numbered-heading regex
`^(\d+)\.\s*([A-Z][A-Z\s]+)$` of `segment_clauses`; returns the captured
leading number on a match.  The stripped line must be: one or more digits,
a literal dot, optional whitespace, then an uppercase letter followed by at
least one more uppercase-or-whitespace character, up to the end. -/
def numberedHeading (l : List Char) : Option String :=
  let ds := l.takeWhile Char.isDigit
  let rest := l.dropWhile Char.isDigit
  if ds ≠ [] then
    match rest with
    | '.' :: rest2 =>
      let body := rest2.dropWhile pySpace
      match body with
      | c :: tail =>
        if c.isUpper ∧ tail ≠ [] ∧ tail.all (fun x => x.isUpper || pySpace x) then
          some ⟨ds⟩
        else none
      | [] => none
    | _ => none
  else none

/-- Line scan of `segment_clauses`: walk the lines, flush the clause in
progress when a heading is detected (numbered, ALL-CAPS, or
colon-terminated), append other nonblank stripped lines to the current
content with a trailing space, and flush the final clause when nonempty. -/
def segScan : List String → Clause → List Clause
  | [], cur => if cur.content ≠ "" then [cur] else []
  | line :: rest, cur =>
    let stripped := pyStrip line
    if stripped = "" then segScan rest cur
    else
      match numberedHeading stripped.toList with
      | some n =>
        (if cur.content ≠ "" then [cur] else []) ++
          segScan rest ⟨stripped, "", n⟩
      | none =>
        if pyIsUpper stripped.toList ∧ 3 < stripped.length ∧ stripped.length < 100 then
          (if cur.content ≠ "" then [cur] else []) ++
            segScan rest ⟨stripped, "", ""⟩
        else if listEndsWith stripped.toList ':' ∧ stripped.length < 100 then
          (if cur.content ≠ "" then [cur] else []) ++
            segScan rest ⟨stripped, "", ""⟩
        else segScan rest { cur with content := cur.content ++ stripped ++ " " }

/-- `segment_clauses` from `diff_engine.py`: split on newlines, scan the
lines, and fall back to a single whole-document clause when the scan
produced nothing. -/
def segment_clauses (text : String) : List Clause :=
  let cs := segScan ((splitNl text.toList).map fun l => ⟨l⟩) ⟨"", "", ""⟩
  if cs = [] then [⟨"Document", text, ""⟩] else cs

/-! ## Model of `difflib.SequenceMatcher(None, a, b).ratio()`

`calculate_similarity` delegates to Python's `difflib`.  We model it at the
level difflib documents: `ratio = 2*M/T` where `M` is the total size of the
matching blocks and `T` the combined length; `find_longest_match` returns,
among the maximal matching blocks containing no junk `b`-element, the one
starting earliest in `a` and then earliest in `b`, afterwards extended by
matching elements on both sides.  With `isjunk=None` the only junk is
difflib's autojunk rule: for `len(b) >= 200`, elements occurring more than
`len(b)//100 + 1` times are excluded from the block search (they still
participate in the extension phase, since the caller-junk set is empty). -/

/-- The autojunk predicate of `difflib.SequenceMatcher` with `isjunk=None`. -/
def popularJunk (b : List Char) (c : Char) : Bool :=
  if 200 ≤ b.length then decide (b.length / 100 + 1 < b.count c) else false

/-- Fueled worker for `npRun`; the fuel `ahi - i` is exactly the number of
steps the guard `i < ahi` admits, so the wrapper below is total and
fuel-exact. -/
def npRunGo (a b : List Char) (junk : Char → Bool) (ahi bhi : Nat) :
    Nat → Nat → Nat → Nat
  | 0, _, _ => 0
  | fuel + 1, i, j =>
    if i < ahi ∧ j < bhi ∧ a.get? i = b.get? j ∧ (b.get? j).all (fun c => !junk c) then
      npRunGo a b junk ahi bhi fuel (i + 1) (j + 1) + 1
    else 0

/-- Length of the junk-free matching run starting at positions `i` in `a`
and `j` in `b`, bounded by `ahi`/`bhi`. -/
def npRun (a b : List Char) (junk : Char → Bool) (ahi bhi : Nat) (i j : Nat) : Nat :=
  npRunGo a b junk ahi bhi (ahi - i) i j

/-- One row of the block search: scan candidate `b`-starts `js` for row `i`,
keeping the first strictly better run (difflib keeps the earliest maximal
block). -/
def scanRow (r : Nat → Nat → Nat) (i : Nat) : List Nat → Nat × Nat × Nat → Nat × Nat × Nat
  | [], best => best
  | j :: js, (bi, bj, bk) =>
    if bk < r i j then scanRow r i js (i, j, r i j) else scanRow r i js (bi, bj, bk)

/-- The full block search over all rows `is` and columns `js`. -/
def scanRows (r : Nat → Nat → Nat) : List Nat → List Nat → Nat × Nat × Nat → Nat × Nat × Nat
  | [], _, best => best
  | i :: is, js, best => scanRows r is js (scanRow r i js best)

/-- Fueled worker for `extLeft`; `bi` itself bounds the number of steps the
guard `alo < bi` admits. -/
def extLeftGo (a b : List Char) (alo blo : Nat) : Nat → Nat → Nat → Nat →
    Nat × Nat × Nat
  | 0, bi, bj, bk => (bi, bj, bk)
  | fuel + 1, bi, bj, bk =>
    if alo < bi ∧ blo < bj ∧ a.get? (bi - 1) = b.get? (bj - 1) then
      extLeftGo a b alo blo fuel (bi - 1) (bj - 1) (bk + 1)
    else (bi, bj, bk)

/-- Leftward extension phase of `find_longest_match`: with no caller junk,
extend the block over any equal elements to the left. -/
def extLeft (a b : List Char) (alo blo : Nat) (bi bj bk : Nat) : Nat × Nat × Nat :=
  extLeftGo a b alo blo bi bi bj bk

/-- Fueled worker for `extRight`; `ahi - (bi + bk)` bounds the number of
steps the guard `bi + bk < ahi` admits. -/
def extRightGo (a b : List Char) (ahi bhi : Nat) (bi bj : Nat) : Nat → Nat → Nat
  | 0, bk => bk
  | fuel + 1, bk =>
    if bi + bk < ahi ∧ bj + bk < bhi ∧ a.get? (bi + bk) = b.get? (bj + bk) then
      extRightGo a b ahi bhi bi bj fuel (bk + 1)
    else bk

/-- Rightward extension phase of `find_longest_match`. -/
def extRight (a b : List Char) (ahi bhi : Nat) (bi bj bk : Nat) : Nat :=
  extRightGo a b ahi bhi bi bj (ahi - (bi + bk)) bk

/-- `find_longest_match` on the range `[alo,ahi) × [blo,bhi)`. -/
def findLongestMatch (a b : List Char) (junk : Char → Bool)
    (alo ahi blo bhi : Nat) : Nat × Nat × Nat :=
  let r := npRun a b junk ahi bhi
  let best := scanRows r (List.range' alo (ahi - alo)) (List.range' blo (bhi - blo))
    (alo, blo, 0)
  let left := extLeft a b alo blo best.1 best.2.1 best.2.2
  (left.1, left.2.1, extRight a b ahi bhi left.1 left.2.1 left.2.2)

/-- Total size of the matching blocks (the `M` of `ratio`), computed by the
recursive subdivision of `get_matching_blocks`; `fuel` bounds the recursion
depth and is chosen large enough at the call site. -/
def matchTotal (a b : List Char) (junk : Char → Bool) :
    Nat → Nat → Nat → Nat → Nat → Nat
  | 0, _, _, _, _ => 0
  | fuel + 1, alo, ahi, blo, bhi =>
    let m := findLongestMatch a b junk alo ahi blo bhi
    if m.2.2 = 0 then 0
    else
      matchTotal a b junk fuel alo m.1 blo m.2.1 + m.2.2 +
        matchTotal a b junk fuel (m.1 + m.2.2) ahi (m.2.1 + m.2.2) bhi

/-- Total matched elements between two char sequences, difflib-style. -/
def smTotal (a b : List Char) : Nat :=
  matchTotal a b (popularJunk b) (a.length + b.length + 1) 0 a.length 0 b.length

/-- `SequenceMatcher.ratio()`: `2*M/T`, and 1 when both sequences are
empty. -/
def ratioQ (a b : List Char) : ℚ :=
  if a.length + b.length = 0 then 1
  else (2 * smTotal a b : ℚ) / (a.length + b.length)

/-- `calculate_similarity` from `diff_engine.py`: 0 when either string is
empty, otherwise the difflib ratio of the lowercased strings. -/
def calculate_similarity (text1 text2 : String) : ℚ :=
  if text1 = "" ∨ text2 = "" then 0
  else ratioQ (pyLower text1).toList (pyLower text2).toList

/-! ## Clause matching (`match_clauses`) -/

/-- Inner loop of `match_clauses` over the clauses of B (with their index
`j`), carrying the `used` set, the best weighted similarity so far, and the
best candidate.  A number match returns immediately (difflib's `break`)
with the internal similarity 0.9; otherwise the candidate with the best
weighted title/content similarity above the 0.2 floor is kept. -/
def innerScan (a : Clause) : List Clause → Nat → List Nat → ℚ →
    Option (Nat × Clause) → Option (Nat × Clause) × ℚ
  | [], _, _, bestSim, best => (best, bestSim)
  | b :: bs, j, used, bestSim, best =>
    if j ∈ used then innerScan a bs (j + 1) used bestSim best
    else if a.number ≠ "" ∧ b.number ≠ "" ∧ a.number = b.number then
      (some (j, b), 9 / 10)
    else
      let sim := calculate_similarity a.title b.title * (1 / 2) +
        calculate_similarity a.content b.content * (1 / 2)
      if bestSim < sim ∧ (1 / 5 : ℚ) < sim then innerScan a bs (j + 1) used sim (some (j, b))
      else innerScan a bs (j + 1) used bestSim best

/-- Outer loop of `match_clauses` over the clauses of A (with their index
`i`): when the inner scan found a match, emit the pair with the
recomputed content-only similarity and mark the B index used. -/
def matchOuter (B : List Clause) : List Clause → Nat → List Nat →
    List (Nat × Nat × ℚ)
  | [], _, _ => []
  | a :: as_, i, used =>
    match innerScan a B 0 used 0 none with
    | (some (j, b), _) =>
      (i, j, calculate_similarity a.content b.content) :: matchOuter B as_ (i + 1) (j :: used)
    | (none, _) => matchOuter B as_ (i + 1) used

/-- `match_clauses` from `diff_engine.py`: returns `(indexA, indexB,
contentSimilarity)` triples. -/
def match_clauses (A B : List Clause) : List (Nat × Nat × ℚ) :=
  matchOuter B A 0 []

/-! ## Numeric extractors -/

/-- Fueled worker for `findNumUnit`: each step continues on a strictly
shorter list (the failure path drops the head; the success path resumes
past the digits it consumed), so the list length is sufficient fuel. -/
def findNumUnitGo (unit : List Char) : Nat → List Char → List (List Char)
  | 0, _ => []
  | fuel + 1, cs =>
    match cs with
    | [] => []
    | c :: rest =>
      if c.isDigit then
        let ds := (c :: rest).takeWhile Char.isDigit
        let after := ((c :: rest).dropWhile Char.isDigit).dropWhile pySpace
        if unit.isPrefixOf after then ds :: findNumUnitGo unit fuel (after.drop unit.length)
        else findNumUnitGo unit fuel rest
      else findNumUnitGo unit fuel rest

/-- Model of `re.findall` with pattern `(\d+)\s*` followed by a literal
unit word: the list of captured maximal digit runs that are followed by
optional whitespace and the unit word, scanning left to right without
overlap. -/
def findNumUnit (unit : List Char) (cs : List Char) : List (List Char) :=
  findNumUnitGo unit cs.length cs

/-- `extract_years` from `diff_engine.py`: the first `(\d+)\s*year` capture
in the lowercased text, or the sentinel 999. -/
def extract_years (text : String) : Nat :=
  match findNumUnit "year".toList (pyLower text).toList with
  | [] => 999
  | ds :: _ => digitsToNat ds

/-- `extract_days` from `diff_engine.py`. -/
def extract_days (text : String) : Nat :=
  match findNumUnit "day".toList (pyLower text).toList with
  | [] => 999
  | ds :: _ => digitsToNat ds

/-- `extract_months` from `diff_engine.py`. -/
def extract_months (text : String) : Nat :=
  match findNumUnit "month".toList (pyLower text).toList with
  | [] => 999
  | ds :: _ => digitsToNat ds

/-! ## Amount and state extractors -/

/-- Fueled worker for `scanAmounts`: every step continues strictly past
the current head, so the list length is sufficient fuel. -/
def scanAmountsGo : Nat → List Char → List (List Char)
  | 0, _ => []
  | fuel + 1, cs =>
    match cs with
    | [] => []
    | c :: rest =>
      if c = '$' then
        let afterWs := rest.dropWhile pySpace
        let tok := afterWs.takeWhile (fun x => x.isDigit || x = ',')
        if tok = [] then scanAmountsGo fuel rest
        else
          match afterWs.dropWhile (fun x => x.isDigit || x = ',') with
          | '.' :: d1 :: d2 :: rest3 =>
            if d1.isDigit ∧ d2.isDigit then (tok ++ ['.', d1, d2]) :: scanAmountsGo fuel rest3
            else tok :: scanAmountsGo fuel ('.' :: d1 :: d2 :: rest3)
          | other => tok :: scanAmountsGo fuel other
      else scanAmountsGo fuel rest

/-- Model of `re.findall(r'\$\s*([\d,]+(?:\.\d{2})?)', text)`: captured
tokens after a dollar sign and optional whitespace — a nonempty run of
digits and commas, optionally followed by a dot and exactly two digits. -/
def scanAmounts (cs : List Char) : List (List Char) :=
  scanAmountsGo cs.length cs

/-- Value of one captured amount token, as `float(m.replace(',', ''))`
computes it; `none` models the `ValueError` the source raises when the
token consists solely of commas. -/
def parseAmountTok (tok : List Char) : Option ℚ :=
  let cleaned := tok.filter (fun c => c ≠ ',')
  if cleaned = [] then none
  else
    let ip := cleaned.takeWhile Char.isDigit
    match cleaned.dropWhile Char.isDigit with
    | '.' :: d1 :: d2 :: [] => some ((digitsToNat ip : ℚ) + (digitsToNat [d1, d2] : ℚ) / 100)
    | _ => some (digitsToNat ip)

/-- ASCII model of the regex class `\w`. -/
def pyWordChar (c : Char) : Bool := c.isAlphanum || c = '_'

/-- Fueled worker for `searchWordNum`. -/
def searchWordNumGo (w : List Char) : Nat → List Char → Option (List Char)
  | 0, _ => none
  | fuel + 1, cs =>
    match cs with
    | [] => none
    | c :: rest =>
      let run := (c :: rest).takeWhile pyWordChar
      let afterRun := (c :: rest).dropWhile pyWordChar
      if run ≠ [] ∧ (afterRun.takeWhile pySpace) ≠ [] ∧
          w.isPrefixOf (afterRun.dropWhile pySpace) then
        some run
      else searchWordNumGo w fuel rest

/-- Model of `re.search(r'(\w+)\s+' + word, text)`: the first maximal word
run followed by at least one whitespace character and the literal word;
returns the captured run. -/
def searchWordNum (w : List Char) (cs : List Char) : Option (List Char) :=
  searchWordNumGo w cs.length cs

/-- The `word_to_num` lookup of `extract_amounts`, defaulting to 1. -/
def wordToNum (g : List Char) : Nat :=
  match [("one", 1), ("two", 2), ("three", 3), ("four", 4), ("five", 5),
      ("six", 6), ("seven", 7), ("eight", 8), ("nine", 9), ("ten", 10),
      ("fifteen", 15), ("twenty", 20), ("fifty", 50),
      ("hundred", 100)].find? (fun p => p.1.toList = g) with
  | some p => p.2
  | none => 1

/-- The `text_amounts` word table of `extract_amounts`, in the source's
iteration order. -/
def textAmountWords : List (String × ℚ) :=
  [("thousand", 1000), ("million", 1000000), ("hundred thousand", 100000)]

/-- `extract_amounts` from `diff_engine.py`: dollar-sign amounts from the
regex scan, then written-number amounts; `none` models the one raising
path (an all-comma token). -/
def extract_amounts (text : String) : Option (List ℚ) :=
  match (scanAmounts text.toList).mapM parseAmountTok with
  | none => none
  | some base =>
    let tl := (pyLower text).toList
    let wordAmts := textAmountWords.foldl
      (fun acc p =>
        if listContains tl p.1.toList then
          match searchWordNum p.1.toList tl with
          | some g => acc ++ [(wordToNum g : ℚ) * p.2]
          | none => acc
        else acc) []
    some (base ++ wordAmts)

/-- The fixed US-state list of `extract_state`, in source order. -/
def stateNames : List String :=
  ["alabama", "alaska", "arizona", "arkansas", "california", "colorado",
   "connecticut", "delaware", "florida", "georgia", "hawaii", "idaho",
   "illinois", "indiana", "iowa", "kansas", "kentucky", "louisiana",
   "maine", "maryland", "massachusetts", "michigan", "minnesota",
   "mississippi", "missouri", "montana", "nebraska", "nevada",
   "new hampshire", "new jersey", "new mexico", "new york",
   "north carolina", "north dakota", "ohio", "oklahoma", "oregon",
   "pennsylvania", "rhode island", "south carolina", "south dakota",
   "tennessee", "texas", "utah", "vermont", "virginia", "washington",
   "west virginia", "wisconsin", "wyoming"]

/-- `extract_state` from `diff_engine.py`: first state name contained in
the lowercased text, title-cased; empty when none. -/
def extract_state (text : String) : String :=
  match stateNames.find? (fun s => strContains (pyLower text) s) with
  | some s => pyTitle s
  | none => ""

/-! ## Risk pattern detection -/

/-- Severity levels of a diff. -/
inductive Severity where
  | High : Severity
  | Medium : Severity
  | Low : Severity
  deriving DecidableEq

/-- Outcome of one specialized rule of `detect_risk_patterns`: it fires
with a classification, falls through to the next rule, or raises (the
`extract_amounts` failure paths and a zero-division). -/
inductive RuleResult where
  | err : RuleResult
  | skip : RuleResult
  | fire : Severity → String → RuleResult
  deriving DecidableEq

/-- Sequencing of rules: the first non-fall-through outcome wins. -/
def RuleResult.seq (a b : RuleResult) : RuleResult :=
  match a with
  | .skip => b
  | x => x

/-- Round-half-to-even of a rational, as Python's float formatting and
`round` behave on exactly representable values. -/
def rhe (q : ℚ) : ℤ :=
  let f := ⌊q⌋
  if q - f < 1 / 2 then f
  else if (1 / 2 : ℚ) < q - f then f + 1
  else if f % 2 = 0 then f else f + 1

/-- Python `round(q, 1)`: one decimal place, half to even. -/
def round1 (q : ℚ) : ℚ := (rhe (q * 10) : ℚ) / 10

/-- Comma grouping of reversed digit characters, three per group. -/
def commaRev : List Char → Nat → List Char
  | [], _ => []
  | c :: rest, k =>
    if k = 3 then ',' :: c :: commaRev rest 1 else c :: commaRev rest (k + 1)

/-- Python `format(q, ',.0f')` for the nonnegative amounts the engine
produces: round half to even to an integer, then insert thousands
separators. -/
def pyMoney (q : ℚ) : String :=
  ⟨(commaRev (toString (rhe q).toNat).toList.reverse 0).reverse⟩

/-- Year-reduction branch of the confidentiality rule. -/
def confYearCheck (oy ny : Nat) : RuleResult :=
  if oy ≠ 999 ∧ ny ≠ 999 then
    if ny < oy then
      if (50 : ℚ) ≤ ((oy : ℚ) - ny) / oy * 100 then
        .fire .High s!"Confidentiality period significantly reduced from {oy} to {ny} years"
      else .fire .Medium s!"Confidentiality period reduced from {oy} to {ny} years"
    else .skip
  else .skip

/-- Month-reduction branch of the confidentiality rule. -/
def confMonthCheck (om nm : Nat) : RuleResult :=
  if om ≠ 999 ∧ nm ≠ 999 ∧ nm < om then
    .fire .Medium s!"Confidentiality period reduced from {om} to {nm} months"
  else .skip

/-- Rule 1 of `detect_risk_patterns`: confidentiality period changes. -/
def rule1 (old_text new_text old_l new_l title_l : String) : RuleResult :=
  if strContains title_l "confidential" || strContains old_l "confidential" then
    (confYearCheck (extract_years old_text) (extract_years new_text)).seq
      (confMonthCheck (extract_months old_text) (extract_months new_text))
  else .skip

/-- Day-reduction branch of the termination-notice rule. -/
def termDayCheck (od nd : Nat) : RuleResult :=
  if od ≠ 999 ∧ nd ≠ 999 ∧ nd < od then
    if (40 : ℚ) ≤ ((od : ℚ) - nd) / od * 100 then
      .fire .High s!"Termination notice significantly reduced from {od} to {nd} days"
    else if (20 : ℚ) ≤ ((od : ℚ) - nd) / od * 100 then
      .fire .Medium s!"Termination notice reduced from {od} to {nd} days"
    else .skip
  else .skip

/-- Rule 2 of `detect_risk_patterns`: termination notice period changes. -/
def rule2 (old_text new_text old_l new_l title_l : String) : RuleResult :=
  if strContains title_l "terminat" || strContains old_l "terminat" then
    termDayCheck (extract_days old_text) (extract_days new_text)
  else .skip

/-- Amount-comparison branch of the payment rule; `.err` models the
`ZeroDivisionError` on a zero old amount. -/
def payAmountCheck (oa na : List ℚ) : RuleResult :=
  if oa ≠ [] ∧ na ≠ [] then
    let o0 := oa.headD 0
    let n0 := na.headD 0
    if o0 < n0 then
      if o0 = 0 then .err
      else if (25 : ℚ) ≤ (n0 - o0) / o0 * 100 then
        .fire .High ("Payment increased from $" ++ pyMoney o0 ++ " to $" ++ pyMoney n0)
      else .fire .Medium ("Payment increased from $" ++ pyMoney o0 ++ " to $" ++ pyMoney n0)
    else if n0 < o0 then .fire .Low "Payment amount decreased"
    else .skip
  else .skip

/-- Deadline branch of the payment rule. -/
def payDeadlineCheck (od nd : Nat) : RuleResult :=
  if od ≠ 999 ∧ nd ≠ 999 ∧ nd < od then
    if 15 ≤ od - nd then .fire .High s!"Payment deadline shortened from {od} to {nd} days"
    else .skip
  else .skip

/-- Rule 3 of `detect_risk_patterns`: payment changes. -/
def rule3 (old_text new_text old_l new_l title_l : String) : RuleResult :=
  if strContains title_l "payment" || strContains old_l "fee" ||
      strContains old_l "consideration" then
    match extract_amounts old_text, extract_amounts new_text with
    | some oa, some na =>
      (payAmountCheck oa na).seq
        (payDeadlineCheck (extract_days old_text) (extract_days new_text))
    | _, _ => .err
  else .skip

/-- Rule 4 of `detect_risk_patterns`: liability cap changes. -/
def rule4 (old_text new_text old_l new_l title_l : String) : RuleResult :=
  if strContains title_l "liabilit" || strContains title_l "indemnif" then
    if strContains new_l "unlimited" && !strContains old_l "unlimited" then
      .fire .High "Liability cap removed - unlimited liability introduced"
    else if strContains old_l "cap" && !strContains new_l "cap" then
      .fire .High "Liability cap removed"
    else
      match extract_amounts old_text, extract_amounts new_text with
      | some oa, some na =>
        if oa ≠ [] ∧ na = [] then .fire .High "Liability cap removed"
        else if oa ≠ [] ∧ na ≠ [] ∧ oa.headD 0 < na.headD 0 then
          .fire .Medium "Liability cap increased"
        else .skip
      | _, _ => .err
  else .skip

/-- Rule 5 of `detect_risk_patterns`: newly introduced non-compete. -/
def rule5 (old_text new_text old_l new_l title_l : String) : RuleResult :=
  if strContains title_l "non-compete" || strContains title_l "non compete" ||
      strContains title_l "noncompete" then
    if strContains new_l "compete" && !strContains old_l "compete" then
      if extract_years new_text ≠ 999 then
        .fire .High s!"New non-compete restriction added ({extract_years new_text} years)"
      else .fire .High "New non-compete restriction added"
    else .skip
  else .skip

/-- Rule 6 of `detect_risk_patterns`: governing-law state changes. -/
def rule6 (old_text new_text old_l new_l title_l : String) : RuleResult :=
  if strContains title_l "governing law" || strContains old_l "governed by" then
    if extract_state old_text ≠ "" ∧ extract_state new_text ≠ "" ∧
        extract_state old_text ≠ extract_state new_text then
      .fire .Medium
        ("Governing law changed from " ++ extract_state old_text ++ " to " ++
          extract_state new_text)
    else .skip
  else .skip

/-- Rule 7 of `detect_risk_patterns`: dispute-resolution flips. -/
def rule7 (old_text new_text old_l new_l title_l : String) : RuleResult :=
  if strContains title_l "dispute" || strContains old_l "arbitrat" then
    if strContains old_l "arbitration" && strContains new_l "court" then
      .fire .Medium "Dispute resolution changed from arbitration to litigation"
    else if strContains old_l "court" && strContains new_l "arbitration" then
      .fire .Medium "Dispute resolution changed from litigation to arbitration"
    else .skip
  else .skip

/-- Rule 8 of `detect_risk_patterns`: loss of prevailing-party fees. -/
def rule8 (old_text new_text old_l new_l title_l : String) : RuleResult :=
  if strContains old_l "attorney" || strContains old_l "legal fee" then
    if strContains old_l "prevailing party" && !strContains new_l "prevailing party" then
      .fire .Medium "Fee recovery changed - no longer favorable to prevailing party"
    else .skip
  else .skip

/-- Extension branch of the agreement-term rule. -/
def termExtendCheck (oy ny : Nat) : RuleResult :=
  if oy ≠ 999 ∧ ny ≠ 999 ∧ oy < ny then
    .fire .Medium s!"Agreement term extended from {oy} to {ny} years"
  else .skip

/-- Rule 9 of `detect_risk_patterns`: agreement term extended. -/
def rule9 (old_text new_text old_l new_l title_l : String) : RuleResult :=
  if strContains title_l "term" && !strContains title_l "terminat" then
    termExtendCheck (extract_years old_text) (extract_years new_text)
  else .skip

/-- The fixed high-risk clause-type keyword set of the fallback. -/
def high_risk_keywords : List String :=
  ["confidentiality", "indemnity", "liability", "intellectual property",
   "termination", "non-compete", "arbitration", "warranty", "payment"]

/-- Fallback classification of `detect_risk_patterns` by content
similarity and high-risk clause type. -/
def fallbackClassify (old_text new_text : String) (title_l : String) : Severity × String :=
  let is_high_risk := high_risk_keywords.any (fun k => strContains title_l k)
  let similarity := calculate_similarity old_text new_text
  if similarity < 2 / 5 ∧ is_high_risk then (.High, "Significant change to critical clause")
  else if similarity < 3 / 5 ∧ is_high_risk then (.Medium, "Moderate change to critical clause")
  else if similarity < 1 / 2 then (.Medium, "Significant change")
  else if similarity < 4 / 5 then (.Low, "Minor change")
  else (.Low, "Minimal change")

/-- `detect_risk_patterns` from `diff_engine.py`: the ordered rule chain
with the similarity fallback; `none` models the raising paths. -/
def detect_risk_patterns (old_text new_text clause_title : String) :
    Option (Severity × String) :=
  let old_l := pyLower old_text
  let new_l := pyLower new_text
  let title_l := pyLower clause_title
  let chain :=
    ((((((((rule1 old_text new_text old_l new_l title_l).seq
      (rule2 old_text new_text old_l new_l title_l)).seq
      (rule3 old_text new_text old_l new_l title_l)).seq
      (rule4 old_text new_text old_l new_l title_l)).seq
      (rule5 old_text new_text old_l new_l title_l)).seq
      (rule6 old_text new_text old_l new_l title_l)).seq
      (rule7 old_text new_text old_l new_l title_l)).seq
      (rule8 old_text new_text old_l new_l title_l)).seq
      (rule9 old_text new_text old_l new_l title_l)
  match chain with
  | .err => none
  | .fire s m => some (s, m)
  | .skip => some (fallbackClassify old_text new_text title_l)

/-! ## Report assembly -/

/-- The three diff types. -/
inductive DiffType where
  | Added : DiffType
  | Removed : DiffType
  | Modified : DiffType
  deriving DecidableEq

/-- One entry of the report's `diffs` sequence. -/
structure DiffEntry where
  clause : String
  type : DiffType
  summary : String
  oldText : String
  newText : String
  severity : Severity
  explanation : String
  confidence : ℚ
  deriving DecidableEq

/-- The report returned by `generate_diff_report`. -/
structure Report where
  riskScore : Nat
  summary : String
  verdict : String
  riskReport : String
  diffs : List DiffEntry
  deriving DecidableEq

/-- `determine_removal_severity` from `diff_engine.py`. -/
def determine_removal_severity (title content : String) : Severity :=
  let title_l := pyLower title
  let content_l := pyLower content
  if ["confidential", "liability", "indemnif", "intellectual property",
      "warranty"].any (fun kw => strContains title_l kw || strContains content_l kw) then
    .High
  else if ["termination", "payment", "dispute", "governing law"].any
      (fun kw => strContains title_l kw || strContains content_l kw) then
    .Medium
  else .Low

/-- `determine_addition_severity` from `diff_engine.py`. -/
def determine_addition_severity (title content : String) : Severity :=
  let title_l := pyLower title
  let content_l := pyLower content
  if strContains title_l "non-compete" || strContains content_l "non compete" then .High
  else if ["liability", "indemnif", "penalty", "liquidated damages"].any
      (fun kw => strContains title_l kw || strContains content_l kw) then
    .High
  else if ["confidential", "termination", "obligation", "restriction"].any
      (fun kw => strContains title_l kw || strContains content_l kw) then
    .Medium
  else .Low

/-- The Modified entry built for the matched pair at A-index `i` with
similarity `s`. -/
def mkModified (i : Nat) (ca cb : Clause) (sev : Severity) (msg : String) (s : ℚ) :
    DiffEntry where
  clause := pyOr (pyOr ca.title cb.title) s!"Clause {i + 1}"
  type := .Modified
  summary := msg
  oldText := pyStrip (ca.content.take 800)
  newText := pyStrip (cb.content.take 800)
  severity := sev
  explanation := ""
  confidence := round1 (s * 100)

/-- Safe indexing into the clause list (the engine's indices are always in
range). -/
def clauseAt (L : List Clause) (i : Nat) : Clause := L.getD i ⟨"", "", ""⟩

/-- The Modified pass of `generate_diff_report`, keeping the source
A-index with each entry; `none` models a raising `detect_risk_patterns`
call. -/
def modifiedIdx (A B : List Clause) : List (Nat × Nat × ℚ) →
    Option (List (Nat × DiffEntry))
  | [] => some []
  | (i, j, s) :: rest =>
    let ca := clauseAt A i
    let cb := clauseAt B j
    if s < 49 / 50 then
      match detect_risk_patterns ca.content cb.content (pyOr ca.title cb.title) with
      | none => none
      | some (sev, msg) =>
        match modifiedIdx A B rest with
        | none => none
        | some t => some ((i, mkModified i ca cb sev msg s) :: t)
    else modifiedIdx A B rest

/-- The Removed pass of `generate_diff_report`, keeping the A-index. -/
def removedIdx (A : List Clause) (matchedA : List Nat) : List (Nat × DiffEntry) :=
  A.enum.filterMap fun p =>
    if p.1 ∉ matchedA ∧ pyStrip p.2.content ≠ "" then
      some (p.1,
        { clause := pyOr p.2.title s!"Clause {p.1 + 1}"
          type := .Removed
          summary := "This clause was removed from the new version"
          oldText := pyStrip (p.2.content.take 800)
          newText := ""
          severity := determine_removal_severity p.2.title p.2.content
          explanation := ""
          confidence := 100 })
    else none

/-- The Added pass of `generate_diff_report`, keeping the B-index. -/
def addedIdx (B : List Clause) (matchedB : List Nat) : List (Nat × DiffEntry) :=
  B.enum.filterMap fun p =>
    if p.1 ∉ matchedB ∧ pyStrip p.2.content ≠ "" then
      some (p.1,
        { clause := pyOr p.2.title s!"New Clause {p.1 + 1}"
          type := .Added
          summary := "This is a new clause added in the new version"
          oldText := ""
          newText := pyStrip (p.2.content.take 800)
          severity := determine_addition_severity p.2.title p.2.content
          explanation := ""
          confidence := 100 })
    else none

/-- The severity counters accumulated by `generate_diff_report`: each
created diff increments exactly its own severity, so the final counters
are the severity counts over the diff list. -/
def countersOf (diffs : List DiffEntry) (sev : Severity) : Nat :=
  (diffs.filter fun d => d.severity = sev).length

/-- The per-diff critical-phrase bonus of `calculate_refined_risk_score`. -/
def bonusOf (summary : String) : Nat :=
  let s := pyLower summary
  (if strContains s "confidentiality period" && strContains s "reduced" then 15 else 0) +
  (if strContains s "unlimited liability" then 12 else 0) +
  (if strContains s "non-compete" then 12 else 0) +
  (if strContains s "termination" && strContains s "reduced" then 10 else 0)

/-- Base points per severity in `calculate_refined_risk_score`. -/
def basePoints : Severity → Nat
  | .High => 18
  | .Medium => 10
  | .Low => 3

/-- `calculate_refined_risk_score` from `diff_engine.py`: base points per
counted severity plus the critical-phrase bonuses, capped at 100. -/
def calculate_refined_risk_score (counters : Severity → Nat) (diffs : List DiffEntry) :
    Nat :=
  let base := basePoints .High * counters .High + basePoints .Medium * counters .Medium +
    basePoints .Low * counters .Low
  min 100 (diffs.foldl (fun acc d => acc + bonusOf d.summary) base)

/-- Python plural suffix `'s' if n != 1 else ''`. -/
def plural (n : Nat) : String := if n ≠ 1 then "s" else ""

/-- `generate_summary_and_verdict` from `diff_engine.py`. -/
def generate_summary_and_verdict (diffs : List DiffEntry) (counters : Severity → Nat)
    (risk_score : Nat) : String × String :=
  let total_diffs := diffs.length
  let high_risk := counters .High
  let medium_risk := counters .Medium
  let added := (diffs.filter fun d => d.type = .Added).length
  let removed := (diffs.filter fun d => d.type = .Removed).length
  let modified := (diffs.filter fun d => d.type = .Modified).length
  let parts :=
    (if 0 < added then [s!"{added} clause" ++ plural added ++ " added"] else []) ++
    (if 0 < removed then [s!"{removed} clause" ++ plural removed ++ " removed"] else []) ++
    (if 0 < modified then [s!"{modified} clause" ++ plural modified ++ " modified"] else [])
  let summary := s!"Found {total_diffs} difference" ++ plural total_diffs ++ ": " ++
    String.intercalate ", " parts ++ ". "
  let summary := summary ++
    (if 0 < high_risk then
      s!"{high_risk} high-risk change" ++ plural high_risk ++
        " detected requiring immediate attention. "
    else "")
  let summary := summary ++
    (if 0 < medium_risk then
      s!"{medium_risk} medium-risk change" ++ plural medium_risk ++ " should be reviewed. "
    else "")
  let critical_changes := (diffs.filter fun d => d.severity = .High).map DiffEntry.summary
  let summary := summary ++
    (if critical_changes ≠ [] then
      "Critical concerns: " ++ String.intercalate "; " (critical_changes.take 3) ++ "."
    else "")
  let verdict :=
    if 75 ≤ risk_score then
      "Contract B poses significantly higher risk compared to Contract A. Multiple critical changes detected. Recommend thorough legal review and substantial negotiation before signing."
    else if 50 ≤ risk_score then
      "Contract B contains moderate to high risks compared to Contract A. Several important clauses have been modified unfavorably. Key terms should be renegotiated."
    else if 30 ≤ risk_score then
      "Contract B has notable differences from Contract A with moderate overall risk. Review and negotiation of specific clauses recommended."
    else if 15 ≤ risk_score then
      "Contract B has minor to moderate differences from Contract A. Most changes are low-risk, but review is still recommended for business alignment."
    else
      "Contract B is substantially similar to Contract A with minimal risk differences. Changes appear to be minor clarifications or formatting updates."
  (summary, verdict)

/-- `generate_risk_report` from `diff_engine.py`. -/
def generate_risk_report (counters : Severity → Nat) (diffs : List DiffEntry) : String :=
  let high_risk := counters .High
  let medium_risk := counters .Medium
  if high_risk = 0 ∧ medium_risk = 0 then
    "No significant risks identified. All changes are low-impact."
  else
    let high_items := (diffs.filter fun d => d.severity = .High).map DiffEntry.clause
    let parts :=
      (if 0 < high_risk then
        [s!"{high_risk} high-risk change" ++ plural high_risk ++ " found. " ++
          "Critical review required for: " ++ String.intercalate ", " (high_items.take 3) ++
          "."]
      else []) ++
      (if 0 < medium_risk then
        [s!"{medium_risk} medium-risk change" ++ plural medium_risk ++ " identified. " ++
          "These should be reviewed to ensure alignment with business objectives."]
      else []) ++
      ["Recommended action: Engage legal counsel to review all high and medium risk changes before signing."]
    String.intercalate " " parts

/-- `generate_diff_report` from `diff_engine.py`: segment, match, build the
Modified then Removed then Added entries, score, and synthesize; `none`
models the raising paths inside risk detection. -/
def generate_diff_report (text_a text_b : String) : Option Report :=
  let A := segment_clauses text_a
  let B := segment_clauses text_b
  let ms := match_clauses A B
  match modifiedIdx A B ms with
  | none => none
  | some modIdx =>
    let matchedA := ms.map fun p => p.1
    let matchedB := ms.map fun p => p.2.1
    let diffs := modIdx.map Prod.snd ++ (removedIdx A matchedA).map Prod.snd ++
      (addedIdx B matchedB).map Prod.snd
    let risk_score := calculate_refined_risk_score (countersOf diffs) diffs
    let sv := generate_summary_and_verdict diffs (countersOf diffs) risk_score
    some
      { riskScore := risk_score
        summary := sv.1
        verdict := sv.2
        riskReport := generate_risk_report (countersOf diffs) diffs
        diffs := diffs }

/-! ## General lemmas -/

theorem seq_fire (s : Severity) (m : String) (r : RuleResult) :
    (RuleResult.fire s m).seq r = .fire s m := rfl

theorem seq_err (r : RuleResult) : RuleResult.err.seq r = .err := rfl

theorem seq_skip (r : RuleResult) : RuleResult.skip.seq r = r := rfl

/-! ## C8: segmentation fallback -/

/-- C8: whenever the line scan of `segment_clauses` produces no clause
(no headings flushed content and no content accumulated), the segmenter
returns exactly the single clause `{title := "Document", content := the
full input text}`; moreover segmentation never returns an empty list. -/
theorem c8_segment_fallback :
    (∀ text : String, segScan ((splitNl text.toList).map fun l => ⟨l⟩) ⟨"", "", ""⟩ = [] →
      segment_clauses text = [⟨"Document", text, ""⟩]) ∧
    (∀ text : String, segment_clauses text ≠ []) := by
  constructor
  · intro text h
    simp only [String.toList] at h
    simp [segment_clauses, h]
  · intro text
    rw [segment_clauses]
    split
    · simp
    · assumption

theorem c8_segment_fallback_w :
    segment_clauses "" = [⟨"Document", "", ""⟩] :=
  c8_segment_fallback.1 "" (by decide)

/-! ## C5: sentinel extraction and sentinel-guarded branches -/

/-- C5: the numeric-unit extractors return the sentinel 999 exactly when
the scan finds no unit phrase and the captured integer of the first (in
particular, of the only) match otherwise; every comparison branch of the
risk detector that consumes a year/month/day pair declines to fire when
either extraction is the sentinel. -/
theorem c5_sentinel_spec :
    (∀ t : String, findNumUnit "year".toList (pyLower t).toList = [] →
      extract_years t = 999) ∧
    (∀ t ds, findNumUnit "year".toList (pyLower t).toList = [ds] →
      extract_years t = digitsToNat ds) ∧
    (∀ t : String, findNumUnit "day".toList (pyLower t).toList = [] →
      extract_days t = 999) ∧
    (∀ t ds, findNumUnit "day".toList (pyLower t).toList = [ds] →
      extract_days t = digitsToNat ds) ∧
    (∀ t : String, findNumUnit "month".toList (pyLower t).toList = [] →
      extract_months t = 999) ∧
    (∀ t ds, findNumUnit "month".toList (pyLower t).toList = [ds] →
      extract_months t = digitsToNat ds) ∧
    (∀ oy ny, oy = 999 ∨ ny = 999 → confYearCheck oy ny = .skip) ∧
    (∀ om nm, om = 999 ∨ nm = 999 → confMonthCheck om nm = .skip) ∧
    (∀ od nd, od = 999 ∨ nd = 999 → termDayCheck od nd = .skip) ∧
    (∀ od nd, od = 999 ∨ nd = 999 → payDeadlineCheck od nd = .skip) ∧
    (∀ oy ny, oy = 999 ∨ ny = 999 → termExtendCheck oy ny = .skip) := by
  refine ⟨?_, ?_, ?_, ?_, ?_, ?_, ?_, ?_, ?_, ?_, ?_⟩
  · intro t h; rw [extract_years, h]
  · intro t ds h; rw [extract_years, h]
  · intro t h; rw [extract_days, h]
  · intro t ds h; rw [extract_days, h]
  · intro t h; rw [extract_months, h]
  · intro t ds h; rw [extract_months, h]
  · intro oy ny h
    rcases h with h | h <;> simp [confYearCheck, h]
  · intro om nm h
    rcases h with h | h <;> simp [confMonthCheck, h]
  · intro od nd h
    rcases h with h | h <;> simp [termDayCheck, h]
  · intro od nd h
    rcases h with h | h <;> simp [payDeadlineCheck, h]
  · intro oy ny h
    rcases h with h | h <;> simp [termExtendCheck, h]

theorem c5_sentinel_spec_w :
    extract_years "confidential, no duration stated" = 999 ∧
    extract_years "kept for 5 years" = digitsToNat ['5'] ∧
    confYearCheck 999 5 = .skip ∧ termDayCheck 30 999 = .skip :=
  ⟨c5_sentinel_spec.1 _ (by decide),
   c5_sentinel_spec.2.1 _ _ (by decide),
   c5_sentinel_spec.2.2.2.2.2.2.1 999 5 (Or.inl rfl),
   c5_sentinel_spec.2.2.2.2.2.2.2.2.1 30 999 (Or.inr rfl)⟩

/-! ## C6: confidentiality reduction severity -/

/-- C6: for a pair gated on the confidentiality keyword whose old and new
texts both yield non-sentinel year counts with the new one lower, the risk
detector fires the confidentiality-year rule first, classifying High
exactly when the reduction is at least 50% of the original and Medium
otherwise. -/
theorem c6_conf_reduction (old_text new_text clause_title : String)
    (hgate : strContains (pyLower clause_title) "confidential" = true ∨
      strContains (pyLower old_text) "confidential" = true)
    (h1 : extract_years old_text ≠ 999) (h2 : extract_years new_text ≠ 999)
    (hlt : extract_years new_text < extract_years old_text) :
    detect_risk_patterns old_text new_text clause_title =
      some (if (50 : ℚ) ≤ ((extract_years old_text : ℚ) - (extract_years new_text : ℚ)) /
            (extract_years old_text : ℚ) * 100 then
          (Severity.High,
            s!"Confidentiality period significantly reduced from {extract_years old_text} to {extract_years new_text} years")
        else
          (Severity.Medium,
            s!"Confidentiality period reduced from {extract_years old_text} to {extract_years new_text} years")) := by
  have hg : (strContains (pyLower clause_title) "confidential" ||
      strContains (pyLower old_text) "confidential") = true := by
    rcases hgate with h | h <;> simp [h]
  have hyc : confYearCheck (extract_years old_text) (extract_years new_text) =
      if (50 : ℚ) ≤ ((extract_years old_text : ℚ) - (extract_years new_text : ℚ)) /
          (extract_years old_text : ℚ) * 100 then
        .fire .High
          s!"Confidentiality period significantly reduced from {extract_years old_text} to {extract_years new_text} years"
      else
        .fire .Medium
          s!"Confidentiality period reduced from {extract_years old_text} to {extract_years new_text} years" := by
    rw [confYearCheck, if_pos ⟨h1, h2⟩, if_pos hlt]
  by_cases hc : (50 : ℚ) ≤ ((extract_years old_text : ℚ) - (extract_years new_text : ℚ)) /
      (extract_years old_text : ℚ) * 100
  · rw [if_pos hc] at hyc
    rw [if_pos hc]
    simp only [detect_risk_patterns, rule1, hg, if_true, hyc, seq_fire]
  · rw [if_neg hc] at hyc
    rw [if_neg hc]
    simp only [detect_risk_patterns, rule1, hg, if_true, hyc, seq_fire]

theorem c6_conf_reduction_w :
    detect_risk_patterns "kept secret for 5 years" "kept secret for 1 year" "CONFIDENTIALITY" =
      some (Severity.High, "Confidentiality period significantly reduced from 5 to 1 years") ∧
    detect_risk_patterns "kept secret for 5 years" "kept secret for 4 years" "CONFIDENTIALITY" =
      some (Severity.Medium, "Confidentiality period reduced from 5 to 4 years") := by
  constructor
  · rw [c6_conf_reduction _ _ _ (Or.inl (by decide)) (by decide) (by decide) (by decide)]
    decide
  · rw [c6_conf_reduction _ _ _ (Or.inl (by decide)) (by decide) (by decide) (by decide)]
    decide

/-! ## C7: similarity fallback classification -/

/-- C7: when none of the nine specialized rules fires, the detector
classifies by content similarity in the source's threshold order, with the
fixed high-risk title keyword set `high_risk_keywords`. -/
theorem c7_fallback_thresholds (old_text new_text clause_title : String)
    (h1 : rule1 old_text new_text (pyLower old_text) (pyLower new_text)
      (pyLower clause_title) = .skip)
    (h2 : rule2 old_text new_text (pyLower old_text) (pyLower new_text)
      (pyLower clause_title) = .skip)
    (h3 : rule3 old_text new_text (pyLower old_text) (pyLower new_text)
      (pyLower clause_title) = .skip)
    (h4 : rule4 old_text new_text (pyLower old_text) (pyLower new_text)
      (pyLower clause_title) = .skip)
    (h5 : rule5 old_text new_text (pyLower old_text) (pyLower new_text)
      (pyLower clause_title) = .skip)
    (h6 : rule6 old_text new_text (pyLower old_text) (pyLower new_text)
      (pyLower clause_title) = .skip)
    (h7 : rule7 old_text new_text (pyLower old_text) (pyLower new_text)
      (pyLower clause_title) = .skip)
    (h8 : rule8 old_text new_text (pyLower old_text) (pyLower new_text)
      (pyLower clause_title) = .skip)
    (h9 : rule9 old_text new_text (pyLower old_text) (pyLower new_text)
      (pyLower clause_title) = .skip) :
    detect_risk_patterns old_text new_text clause_title =
      some
        (if calculate_similarity old_text new_text < 2 / 5 ∧
            high_risk_keywords.any (fun k => strContains (pyLower clause_title) k) then
          (Severity.High, "Significant change to critical clause")
        else if calculate_similarity old_text new_text < 3 / 5 ∧
            high_risk_keywords.any (fun k => strContains (pyLower clause_title) k) then
          (Severity.Medium, "Moderate change to critical clause")
        else if calculate_similarity old_text new_text < 1 / 2 then
          (Severity.Medium, "Significant change")
        else if calculate_similarity old_text new_text < 4 / 5 then
          (Severity.Low, "Minor change")
        else (Severity.Low, "Minimal change")) := by
  simp only [detect_risk_patterns, h1, h2, h3, h4, h5, h6, h7, h8, h9, seq_skip]
  rfl

theorem c7_fallback_thresholds_w :
    detect_risk_patterns "hello world" "hello there" "XYZ" =
      some (Severity.Low, "Minor change") := by
  rw [c7_fallback_thresholds _ _ _ (by decide) (by decide) (by decide) (by decide)
    (by decide) (by decide) (by decide) (by decide) (by decide)]
  decide

/-! ## C2: risk score aggregation -/

theorem countersOf_cons (d : DiffEntry) (t : List DiffEntry) (sev : Severity) :
    countersOf (d :: t) sev = (if d.severity = sev then 1 else 0) + countersOf t sev := by
  simp only [countersOf, List.filter_cons]
  split <;> simp_all <;> omega

theorem foldl_add_map {α : Type} (f : α → Nat) (l : List α) (b : Nat) :
    l.foldl (fun acc d => acc + f d) b = b + (l.map f).sum := by
  induction l generalizing b with
  | nil => simp
  | cons d t ih => simp [ih]; omega

theorem base_eq_sum (diffs : List DiffEntry) :
    basePoints .High * countersOf diffs .High + basePoints .Medium * countersOf diffs .Medium +
      basePoints .Low * countersOf diffs .Low =
      (diffs.map fun d => basePoints d.severity).sum := by
  induction diffs with
  | nil => simp [countersOf]
  | cons d t ih =>
    rw [countersOf_cons, countersOf_cons, countersOf_cons, List.map_cons, List.sum_cons, ← ih]
    rcases hd : d.severity <;> simp [hd, basePoints] <;> ring

theorem score_eq_sum (diffs : List DiffEntry) :
    calculate_refined_risk_score (countersOf diffs) diffs =
      min 100 ((diffs.map fun d => basePoints d.severity + bonusOf d.summary).sum) := by
  rw [calculate_refined_risk_score, foldl_add_map, base_eq_sum]
  congr 1
  induction diffs with
  | nil => simp
  | cons d t ih =>
    simp only [List.map_cons, List.sum_cons]
    omega

/-- C2: the aggregated risk score equals the sum over the diffs of the
severity base points (High 18, Medium 10, Low 3) plus the fixed
critical-phrase bonuses of each diff's summary, clamped to 100; every
generated report's `riskScore` lies in [0, 100]; and appending a diff
never decreases the score. -/
theorem c2_risk_score :
    (∀ diffs : List DiffEntry,
      calculate_refined_risk_score (countersOf diffs) diffs =
        min 100 ((diffs.map fun d => basePoints d.severity + bonusOf d.summary).sum)) ∧
    (∀ text_a text_b r, generate_diff_report text_a text_b = some r →
      0 ≤ r.riskScore ∧ r.riskScore ≤ 100) ∧
    (∀ (diffs : List DiffEntry) (d : DiffEntry),
      calculate_refined_risk_score (countersOf diffs) diffs ≤
        calculate_refined_risk_score (countersOf (diffs ++ [d])) (diffs ++ [d])) := by
  refine ⟨score_eq_sum, ?_, ?_⟩
  · intro text_a text_b r h
    simp only [generate_diff_report] at h
    split at h
    · exact absurd h (by simp)
    · cases h
      exact ⟨Nat.zero_le _, Nat.min_le_left 100 _⟩
  · intro diffs d
    rw [score_eq_sum, score_eq_sum]
    refine min_le_min le_rfl ?_
    simp

theorem c2_risk_score_w :
    ((generate_diff_report "a" "a").map Report.riskScore).getD 101 ≤ 100 := by
  cases hg : generate_diff_report "a" "a" with
  | none =>
    have hne : generate_diff_report "a" "a" ≠ none := by decide
    exact absurd hg hne
  | some r => simpa [hg] using (c2_risk_score.2.1 "a" "a" r hg).2

/-! ## C4/C3: properties of the clause matcher -/

theorem innerScan_some_notmem (a : Clause) (bs : List Clause) :
    ∀ (j0 : Nat) (used : List Nat) (s : ℚ) (best : Option (Nat × Clause)),
      (∀ q, best = some q → q.1 ∉ used) →
      ∀ j b, (innerScan a bs j0 used s best).1 = some (j, b) → j ∉ used := by
  induction bs with
  | nil =>
    intro j0 used s best hbest j b h
    exact hbest (j, b) h
  | cons c bs ih =>
    intro j0 used s best hbest j b h
    by_cases hj : j0 ∈ used
    · simp only [innerScan, if_pos hj] at h
      exact ih _ _ _ _ hbest j b h
    · by_cases hn : a.number ≠ "" ∧ c.number ≠ "" ∧ a.number = c.number
      · simp only [innerScan, if_neg hj, if_pos hn] at h
        cases h
        exact hj
      · simp only [innerScan, if_neg hj, if_neg hn] at h
        split at h
        · refine ih _ _ _ _ ?_ j b h
          intro q hq
          cases hq
          exact hj
        · exact ih _ _ _ _ hbest j b h

theorem matchOuter_snd_notmem (B : List Clause) (l : List Clause) :
    ∀ (i : Nat) (used : List Nat) (p : Nat × Nat × ℚ),
      p ∈ matchOuter B l i used → p.2.1 ∉ used := by
  induction l with
  | nil => intro i used p h; simp [matchOuter] at h
  | cons a l ih =>
    intro i used p h
    rcases hscan : innerScan a B 0 used 0 none with ⟨ob, s⟩
    cases ob with
    | none =>
      rw [matchOuter, hscan] at h
      exact ih _ _ p h
    | some jb =>
      rcases jb with ⟨j, b⟩
      rw [matchOuter, hscan] at h
      rcases List.mem_cons.1 h with rfl | hmem
      · have := innerScan_some_notmem a B 0 used 0 none (by intro q hq; cases hq) j b
        simp only [hscan] at this
        exact this trivial
      · have := ih _ _ p hmem
        intro hc
        exact this (List.mem_cons_of_mem _ hc)

theorem matchOuter_snd_pairwise (B : List Clause) (l : List Clause) :
    ∀ (i : Nat) (used : List Nat),
      (matchOuter B l i used).Pairwise fun p q => p.2.1 ≠ q.2.1 := by
  induction l with
  | nil => intro i used; simp [matchOuter]
  | cons a l ih =>
    intro i used
    rcases hscan : innerScan a B 0 used 0 none with ⟨ob, s⟩
    cases ob with
    | none => rw [matchOuter, hscan]; exact ih _ _
    | some jb =>
      rcases jb with ⟨j, b⟩
      rw [matchOuter, hscan]
      refine List.Pairwise.cons ?_ (ih _ _)
      intro q hq
      have := matchOuter_snd_notmem B l (i + 1) (j :: used) q hq
      simp only [List.mem_cons, not_or] at this
      exact fun hc => this.1 hc.symm

theorem matchOuter_fst_lb (B : List Clause) (l : List Clause) :
    ∀ (i : Nat) (used : List Nat) (p : Nat × Nat × ℚ),
      p ∈ matchOuter B l i used → i ≤ p.1 := by
  induction l with
  | nil => intro i used p h; simp [matchOuter] at h
  | cons a l ih =>
    intro i used p h
    rcases hscan : innerScan a B 0 used 0 none with ⟨ob, s⟩
    cases ob with
    | none =>
      rw [matchOuter, hscan] at h
      exact le_trans (Nat.le_succ i) (ih _ _ p h)
    | some jb =>
      rcases jb with ⟨j, b⟩
      rw [matchOuter, hscan] at h
      rcases List.mem_cons.1 h with rfl | hmem
      · exact le_rfl
      · exact le_trans (Nat.le_succ i) (ih _ _ p hmem)

theorem matchOuter_fst_pairwise (B : List Clause) (l : List Clause) :
    ∀ (i : Nat) (used : List Nat),
      (matchOuter B l i used).Pairwise fun p q => p.1 < q.1 := by
  induction l with
  | nil => intro i used; simp [matchOuter]
  | cons a l ih =>
    intro i used
    rcases hscan : innerScan a B 0 used 0 none with ⟨ob, s⟩
    cases ob with
    | none => rw [matchOuter, hscan]; exact ih _ _
    | some jb =>
      rcases jb with ⟨j, b⟩
      rw [matchOuter, hscan]
      refine List.Pairwise.cons ?_ (ih _ _)
      intro q hq
      exact lt_of_lt_of_le (Nat.lt_succ_self i) (matchOuter_fst_lb B l (i + 1) _ q hq)

/-- C4: the matching is a one-to-one partial matching: no A-index and no
B-index occurs in two distinct emitted pairs. -/
theorem c4_one_to_one (A B : List Clause) :
    (match_clauses A B).Pairwise fun p q => p.1 ≠ q.1 ∧ p.2.1 ≠ q.2.1 := by
  rw [match_clauses]
  exact ((matchOuter_fst_pairwise B A 0 []).imp fun h => Nat.ne_of_lt h).and
    (matchOuter_snd_pairwise B A 0 [])

theorem innerScan_elem (a : Clause) (B : List Clause) (bs : List Clause) :
    ∀ (j0 : Nat) (used : List Nat) (s : ℚ) (best : Option (Nat × Clause)),
      (∀ t, bs.get? t = B.get? (j0 + t)) →
      (∀ j b, best = some (j, b) → b = clauseAt B j ∧ j < B.length) →
      ∀ j b, (innerScan a bs j0 used s best).1 = some (j, b) →
        b = clauseAt B j ∧ j < B.length := by
  induction bs with
  | nil =>
    intro j0 used s best hbs hbest j b h
    exact hbest j b h
  | cons c bs ih =>
    intro j0 used s best hbs hbest j b h
    have hc : B.get? j0 = some c := by
      have := hbs 0
      simpa using this.symm
    have hc2 : B[j0]? = some c := by rw [← List.get?_eq_getElem?]; exact hc
    have hcAt : c = clauseAt B j0 ∧ j0 < B.length := by
      constructor
      · simp [clauseAt, List.getD, hc2]
      · exact List.get?_eq_some.1 hc |>.1
    have hbs' : ∀ t, bs.get? t = B.get? (j0 + 1 + t) := by
      intro t
      have := hbs (t + 1)
      simpa [Nat.add_assoc, Nat.add_comm 1 t] using this
    by_cases hj : j0 ∈ used
    · simp only [innerScan, if_pos hj] at h
      exact ih _ _ _ _ hbs' hbest j b h
    · by_cases hn : a.number ≠ "" ∧ c.number ≠ "" ∧ a.number = c.number
      · simp only [innerScan, if_neg hj, if_pos hn] at h
        cases h
        exact hcAt
      · simp only [innerScan, if_neg hj, if_neg hn] at h
        split at h
        · refine ih _ _ _ _ hbs' ?_ j b h
          intro j' b' hq
          cases hq
          exact hcAt
        · exact ih _ _ _ _ hbs' hbest j b h

theorem matchOuter_sim (A B : List Clause) (l : List Clause) :
    ∀ (i0 : Nat) (used : List Nat),
      (∀ t, l.get? t = A.get? (i0 + t)) →
      ∀ i j s, (i, j, s) ∈ matchOuter B l i0 used →
        s = calculate_similarity (clauseAt A i).content (clauseAt B j).content ∧
          i < A.length ∧ j < B.length := by
  induction l with
  | nil => intro i0 used hl i j s h; simp [matchOuter] at h
  | cons a l ih =>
    intro i0 used hl i j s h
    have ha : A.get? i0 = some a := by
      have := hl 0
      simpa using this.symm
    have ha2 : A[i0]? = some a := by rw [← List.get?_eq_getElem?]; exact ha
    have haAt : a = clauseAt A i0 ∧ i0 < A.length := by
      constructor
      · simp [clauseAt, List.getD, ha2]
      · exact List.get?_eq_some.1 ha |>.1
    have hl' : ∀ t, l.get? t = A.get? (i0 + 1 + t) := by
      intro t
      have := hl (t + 1)
      simpa [Nat.add_assoc, Nat.add_comm 1 t] using this
    rcases hscan : innerScan a B 0 used 0 none with ⟨ob, sim⟩
    cases ob with
    | none =>
      rw [matchOuter, hscan] at h
      exact ih _ _ hl' i j s h
    | some jb =>
      rcases jb with ⟨j', b⟩
      rw [matchOuter, hscan] at h
      rcases List.mem_cons.1 h with heq | hmem
      · have hb : b = clauseAt B j' ∧ j' < B.length := by
          have := innerScan_elem a B B 0 used 0 none (by intro t; simp)
            (by intro x y hq; cases hq) j' b
          simp only [hscan] at this
          exact this trivial
        injection heq with e1 e2
        injection e2 with e2a e2b
        subst e1 e2a e2b
        exact ⟨by rw [← haAt.1, ← hb.1], haAt.2, hb.2⟩
      · exact ih _ _ hl' i j s hmem

/-- C3 counterexample: the matcher pairs two clauses with equal numbers,
but the emitted pair's stored similarity is the recomputed content-only
similarity (here 0, the contents sharing no characters), not the fixed
0.9 the claim asserts. -/
theorem c3_number_match_counter :
    match_clauses [⟨"1. A B", "abc", "1"⟩] [⟨"1. C D", "xyz", "1"⟩] = [(0, 0, 0)] ∧
    ((0 : ℚ) ≠ 9 / 10) := ⟨by decide, by decide⟩

/-- C3 (amended): a number match still causes the immediate pairing, but
the pair's stored similarity is the recomputed content-only similarity of
the two clauses — for every emitted pair, not the fixed 0.9. -/
theorem c3_stored_similarity (A B : List Clause) (i j : Nat) (s : ℚ)
    (h : (i, j, s) ∈ match_clauses A B) :
    s = calculate_similarity (clauseAt A i).content (clauseAt B j).content := by
  rw [match_clauses] at h
  exact (matchOuter_sim A B A 0 [] (by intro t; simp) i j s h).1

theorem c3_stored_similarity_w :
    (0 : ℚ) = calculate_similarity (clauseAt [⟨"1. A B", "abc", "1"⟩] 0).content
      (clauseAt [⟨"1. C D", "xyz", "1"⟩] 0).content :=
  c3_stored_similarity _ _ 0 0 0 (by decide)

/-! ## Lemmas about the SequenceMatcher model -/

theorem npRunGo_le_fuel (a b : List Char) (junk : Char → Bool) (ahi bhi : Nat) :
    ∀ fuel i j, npRunGo a b junk ahi bhi fuel i j ≤ fuel := by
  intro fuel
  induction fuel with
  | zero => intro i j; simp [npRunGo]
  | succ f ih =>
    intro i j
    rw [npRunGo]
    split
    · exact Nat.succ_le_succ (ih (i + 1) (j + 1))
    · exact Nat.zero_le _

theorem npRunGo_spec (a b : List Char) (junk : Char → Bool) (ahi bhi : Nat) :
    ∀ fuel i j t, t < npRunGo a b junk ahi bhi fuel i j →
      i + t < ahi ∧ j + t < bhi ∧ a.get? (i + t) = b.get? (j + t) ∧
        (b.get? (j + t)).all (fun c => !junk c) := by
  intro fuel
  induction fuel with
  | zero => intro i j t ht; simp [npRunGo] at ht
  | succ f ih =>
    intro i j t ht
    rw [npRunGo] at ht
    split at ht
    · rename_i hcond
      cases t with
      | zero => simpa using hcond
      | succ t =>
        have := ih (i + 1) (j + 1) t (by omega)
        constructor
        · omega
        constructor
        · omega
        constructor
        · have h3 := this.2.2.1
          rwa [show i + 1 + t = i + (t + 1) by omega, show j + 1 + t = j + (t + 1) by omega]
            at h3
        · have h4 := this.2.2.2
          rwa [show j + 1 + t = j + (t + 1) by omega] at h4
    · omega

theorem npRunGo_ge (a b : List Char) (junk : Char → Bool) (ahi bhi : Nat) :
    ∀ fuel i j m, m ≤ fuel →
      (∀ t, t < m → i + t < ahi ∧ j + t < bhi ∧ a.get? (i + t) = b.get? (j + t) ∧
        (b.get? (j + t)).all (fun c => !junk c)) →
      m ≤ npRunGo a b junk ahi bhi fuel i j := by
  intro fuel
  induction fuel with
  | zero => intro i j m hm _; omega
  | succ f ih =>
    intro i j m hm hconds
    cases m with
    | zero => exact Nat.zero_le _
    | succ m =>
      have h0 := hconds 0 (by omega)
      simp only [Nat.add_zero] at h0
      rw [npRunGo, if_pos h0]
      have : m ≤ npRunGo a b junk ahi bhi f (i + 1) (j + 1) := by
        refine ih (i + 1) (j + 1) m (by omega) ?_
        intro t ht
        have := hconds (t + 1) (by omega)
        constructor
        · omega
        constructor
        · omega
        constructor
        · have h3 := this.2.2.1
          rwa [show i + (t + 1) = i + 1 + t by omega, show j + (t + 1) = j + 1 + t by omega]
            at h3
        · have h4 := this.2.2.2
          rwa [show j + (t + 1) = j + 1 + t by omega] at h4
      omega

theorem npRun_le_left (a b : List Char) (junk : Char → Bool) (ahi bhi i j : Nat) :
    npRun a b junk ahi bhi i j ≤ ahi - i :=
  npRunGo_le_fuel a b junk ahi bhi (ahi - i) i j

theorem npRun_add_le_left (a b : List Char) (junk : Char → Bool) (ahi bhi i j : Nat)
    (hi : i ≤ ahi) : i + npRun a b junk ahi bhi i j ≤ ahi := by
  have := npRun_le_left a b junk ahi bhi i j
  omega

theorem npRun_add_le_right (a b : List Char) (junk : Char → Bool) (ahi bhi i j : Nat)
    (hj : j ≤ bhi) : j + npRun a b junk ahi bhi i j ≤ bhi := by
  rcases Nat.eq_zero_or_pos (npRun a b junk ahi bhi i j) with h | h
  · omega
  · have := npRunGo_spec a b junk ahi bhi (ahi - i) i j
      (npRun a b junk ahi bhi i j - 1) (by unfold npRun at h ⊢; omega)
    have h2 := this.2.1
    omega

theorem npRun_diag_ge (a : List Char) (junk : Char → Bool) (n : Nat) (i j : Nat)
    (hin : i ≤ n) (hjn : j ≤ n) :
    npRun a a junk n n i j ≤ npRun a a junk n n (min i j) (min i j) := by
  set m := npRun a a junk n n i j with hm
  have hspec := npRunGo_spec a a junk n n (n - i) i j
  have hd : min i j ≤ i := Nat.min_le_left i j
  refine npRunGo_ge a a junk n n (n - min i j) (min i j) (min i j) m ?_ ?_
  · have := npRun_le_left a a junk n n i j
    omega
  · intro t ht
    have hc := hspec t ht
    rcases Nat.le_total i j with hij | hji
    · have hmin : min i j = i := Nat.min_eq_left hij
      rw [hmin]
      refine ⟨hc.1, by omega, rfl, ?_⟩
      have heq : a.get? (i + t) = a.get? (j + t) := hc.2.2.1
      rw [heq]
      exact hc.2.2.2
    · have hmin : min i j = j := Nat.min_eq_right hji
      rw [hmin]
      exact ⟨by omega, hc.2.1, rfl, hc.2.2.2⟩

theorem scanRow_cases (r : Nat → Nat → Nat) (i : Nat) :
    ∀ (js : List Nat) (best : Nat × Nat × Nat),
      scanRow r i js best = best ∨
        ∃ j ∈ js, scanRow r i js best = (i, j, r i j) := by
  intro js
  induction js with
  | nil => intro best; left; rfl
  | cons j js ih =>
    intro best
    rcases best with ⟨bi, bj, bk⟩
    rw [scanRow]
    split
    · rcases ih (i, j, r i j) with h | ⟨j', hj', h⟩
      · right; exact ⟨j, List.mem_cons_self j js, h⟩
      · right; exact ⟨j', List.mem_cons_of_mem _ hj', h⟩
    · rcases ih (bi, bj, bk) with h | ⟨j', hj', h⟩
      · left; exact h
      · right; exact ⟨j', List.mem_cons_of_mem _ hj', h⟩

theorem scanRows_cases (r : Nat → Nat → Nat) :
    ∀ (is : List Nat) (js : List Nat) (best : Nat × Nat × Nat),
      scanRows r is js best = best ∨
        ∃ i ∈ is, ∃ j ∈ js, scanRows r is js best = (i, j, r i j) := by
  intro is
  induction is with
  | nil => intro js best; left; rfl
  | cons i is ih =>
    intro js best
    rw [scanRows]
    rcases ih js (scanRow r i js best) with h | ⟨i', hi', j', hj', h⟩
    · rw [h]
      rcases scanRow_cases r i js best with h2 | ⟨j, hj, h2⟩
      · left; exact h2
      · right; exact ⟨i, List.mem_cons_self i is, j, hj, h2⟩
    · right; exact ⟨i', List.mem_cons_of_mem _ hi', j', hj', h⟩

theorem scanRow_diag (r : Nat → Nat → Nat)
    (hdom : ∀ i j, r i j ≤ r (min i j) (min i j)) (R : Nat) :
    ∀ (js : List Nat) (d bk : Nat),
      js.Pairwise (· < ·) →
      (∀ j ∈ js, j < R → r j j ≤ bk) →
      (R ∈ js ∨ r R R ≤ bk) →
      ∃ d2 bk2, scanRow r R js (d, d, bk) = (d2, d2, bk2) ∧ bk ≤ bk2 ∧
        (R ∈ js → r R R ≤ bk2) := by
  intro js
  induction js with
  | nil =>
    intro d bk _ _ _
    exact ⟨d, bk, rfl, le_rfl, by simp⟩
  | cons j js ih =>
    intro d bk hsort h1 hR
    have hsort' : js.Pairwise (· < ·) := hsort.of_cons
    have hlt : ∀ x ∈ js, j < x := fun x hx => List.rel_of_pairwise_cons hsort hx
    rcases Nat.lt_trichotomy j R with hjR | rfl | hjR
    · -- column j < R: dominated by its own diagonal, no update
      have hno : ¬ bk < r R j := by
        have := hdom R j
        rw [Nat.min_eq_right (le_of_lt hjR)] at this
        have hjj := h1 j (List.mem_cons_self j js) hjR
        omega
      rw [scanRow, if_neg hno]
      have hR' : R ∈ js ∨ r R R ≤ bk := by
        rcases hR with h | h
        · rcases List.mem_cons.1 h with rfl | h2
          · omega
          · exact Or.inl h2
        · exact Or.inr h
      obtain ⟨d2, bk2, heq, hle, hmem⟩ := ih d bk hsort'
        (fun x hx hxR => h1 x (List.mem_cons_of_mem _ hx) hxR) hR'
      refine ⟨d2, bk2, heq, hle, ?_⟩
      intro hRmem
      rcases List.mem_cons.1 hRmem with rfl | h2
      · omega
      · exact hmem h2
    · -- the scanned column equals the row index: any update is diagonal
      by_cases hup : bk < r j j
      · rw [scanRow, if_pos hup]
        obtain ⟨d2, bk2, heq, hle, hmem⟩ := ih j (r j j) hsort'
          (fun x hx hxR => absurd (hlt x hx) (by omega)) (Or.inr le_rfl)
        exact ⟨d2, bk2, heq, by omega, fun _ => by omega⟩
      · rw [scanRow, if_neg hup]
        obtain ⟨d2, bk2, heq, hle, hmem⟩ := ih d bk hsort'
          (fun x hx hxR => absurd (hlt x hx) (by omega)) (Or.inr (by omega))
        exact ⟨d2, bk2, heq, hle, fun _ => by omega⟩
    · -- column j > R: r R R is already dominated, no update
      have hRbk : r R R ≤ bk := by
        rcases hR with h | h
        · rcases List.mem_cons.1 h with rfl | h2
          · omega
          · exact absurd (hlt R h2) (by omega)
        · exact h
      have hno : ¬ bk < r R j := by
        have := hdom R j
        rw [Nat.min_eq_left (by omega)] at this
        omega
      rw [scanRow, if_neg hno]
      obtain ⟨d2, bk2, heq, hle, hmem⟩ := ih d bk hsort'
        (fun x hx hxR => h1 x (List.mem_cons_of_mem _ hx) hxR) (Or.inr hRbk)
      exact ⟨d2, bk2, heq, hle, fun _ => by omega⟩

theorem scanRows_diag (r : Nat → Nat → Nat)
    (hdom : ∀ i j, r i j ≤ r (min i j) (min i j)) :
    ∀ (is : List Nat) (js : List Nat) (d bk : Nat),
      is.Pairwise (· < ·) → js.Pairwise (· < ·) →
      (∀ i ∈ is, i ∈ js) →
      (∀ y ∈ js, y ∉ is → r y y ≤ bk) →
      ∃ d2 bk2, scanRows r is js (d, d, bk) = (d2, d2, bk2) := by
  intro is
  induction is with
  | nil => intro js d bk _ _ _ _; exact ⟨d, bk, rfl⟩
  | cons i is ih =>
    intro js d bk hsort hjsort hsub hinv
    have hsort' : is.Pairwise (· < ·) := hsort.of_cons
    have hlt : ∀ x ∈ is, i < x := fun x hx => List.rel_of_pairwise_cons hsort hx
    obtain ⟨d2, bk2, heq, hle, hmem⟩ := scanRow_diag r hdom i js d bk hjsort
      (fun y hy hyi => hinv y hy (fun hc => by
        rcases List.mem_cons.1 hc with rfl | h2
        · omega
        · exact absurd (hlt y h2) (by omega)))
      (Or.inl (hsub i (List.mem_cons_self i is)))
    rw [scanRows, heq]
    refine ih js d2 bk2 hsort' hjsort (fun x hx => hsub x (List.mem_cons_of_mem _ hx)) ?_
    intro y hy hynot
    by_cases hyi : y = i
    · subst hyi
      exact hmem (hsub y (List.mem_cons_self y is))
    · have : y ∉ (i :: is) := by
        intro hc
        rcases List.mem_cons.1 hc with rfl | h2
        · exact hyi rfl
        · exact hynot h2
      exact le_trans (hinv y hy this) hle

theorem npRun_zero_of_out (a b : List Char) (junk : Char → Bool) (ahi bhi i j : Nat)
    (h : ahi ≤ i ∨ bhi ≤ j) : npRun a b junk ahi bhi i j = 0 := by
  rcases h with h | h
  · have : ahi - i = 0 := by omega
    rw [npRun, this, npRunGo]
  · rw [npRun]
    cases hf : ahi - i with
    | zero => rw [npRunGo]
    | succ f => rw [npRunGo, if_neg (by omega)]

theorem npRun_diag_dom (a : List Char) (junk : Char → Bool) (n : Nat) :
    ∀ i j, npRun a a junk n n i j ≤ npRun a a junk n n (min i j) (min i j) := by
  intro i j
  by_cases hb : i ≤ n ∧ j ≤ n
  · exact npRun_diag_ge a junk n i j hb.1 hb.2
  · rw [npRun_zero_of_out a a junk n n i j (by omega)]
    exact Nat.zero_le _

theorem extLeftGo_stop (a b : List Char) (alo blo : Nat) (fuel bi bj bk : Nat)
    (h : ¬(alo < bi ∧ blo < bj ∧ a.get? (bi - 1) = b.get? (bj - 1))) :
    extLeftGo a b alo blo fuel bi bj bk = (bi, bj, bk) := by
  cases fuel with
  | zero => rfl
  | succ f => rw [extLeftGo, if_neg h]

theorem extLeftGo_self (a : List Char) :
    ∀ d bk, extLeftGo a a 0 0 d d d bk = (0, 0, bk + d) := by
  intro d
  induction d with
  | zero => intro bk; rfl
  | succ d ih =>
    intro bk
    rw [extLeftGo, if_pos ⟨Nat.succ_pos d, Nat.succ_pos d, rfl⟩]
    simp only [Nat.add_sub_cancel]
    rw [ih (bk + 1)]
    congr 2
    omega

theorem extRightGo_stop (a b : List Char) (ahi bhi bi bj : Nat) (fuel bk : Nat)
    (h : ¬(bi + bk < ahi ∧ bj + bk < bhi ∧ a.get? (bi + bk) = b.get? (bj + bk))) :
    extRightGo a b ahi bhi bi bj fuel bk = bk := by
  cases fuel with
  | zero => rfl
  | succ f => rw [extRightGo, if_neg h]

theorem extRightGo_self (a : List Char) (n : Nat) :
    ∀ fuel k, fuel = n - k → k ≤ n → extRightGo a a n n 0 0 fuel k = n := by
  intro fuel
  induction fuel with
  | zero => intro k h1 h2; rw [extRightGo]; omega
  | succ f ih =>
    intro k h1 h2
    rw [extRightGo, if_pos ⟨by omega, by omega, rfl⟩]
    exact ih (k + 1) (by omega) (by omega)

theorem pairwise_lt_range'_one (s n : Nat) : (List.range' s n).Pairwise (· < ·) := by
  induction n generalizing s with
  | zero => simp
  | succ n ih =>
    rw [List.range'_succ]
    refine List.Pairwise.cons ?_ (ih (s + 1))
    intro y hy
    have := List.mem_range'_1.1 hy
    omega

theorem flm_self (a : List Char) (junk : Char → Bool) (n : Nat) :
    findLongestMatch a a junk 0 n 0 n = (0, 0, n) := by
  rw [findLongestMatch]
  obtain ⟨d, bk, heq⟩ := scanRows_diag (npRun a a junk n n) (npRun_diag_dom a junk n)
    (List.range' 0 (n - 0)) (List.range' 0 (n - 0)) 0 0
    (pairwise_lt_range'_one 0 (n - 0)) (pairwise_lt_range'_one 0 (n - 0))
    (fun i hi => hi) (fun y hy hynot => absurd hy hynot)
  have hbk : bk + d ≤ n := by
    rcases scanRows_cases (npRun a a junk n n) (List.range' 0 (n - 0))
        (List.range' 0 (n - 0)) (0, 0, 0) with hc | ⟨i, hi, j, hj, hc⟩
    · rw [hc] at heq
      have h1 : d = 0 := congrArg (fun p => p.1) heq.symm
      have h2 : bk = 0 := congrArg (fun p => p.2.2) heq.symm
      omega
    · rw [hc] at heq
      have h1 : i = d := congrArg (fun p => p.1) heq
      have h2 : j = d := congrArg (fun p => p.2.1) heq
      have h3 : npRun a a junk n n i j = bk := congrArg (fun p => p.2.2) heq
      have hin : 0 ≤ i ∧ i < 0 + (n - 0) := List.mem_range'_1.1 hi
      have := npRun_add_le_left a a junk n n i j (by omega)
      omega
  rw [heq]
  simp only [extLeft, extLeftGo_self a d bk]
  simp only [extRight]
  have : extRightGo a a n n 0 0 (n - (0 + (bk + d))) (bk + d) = n :=
    extRightGo_self a n (n - (0 + (bk + d))) (bk + d) (by omega) (by omega)
  rw [this]

theorem matchTotal_same_range (a b : List Char) (junk : Char → Bool) :
    ∀ fuel alo blo, matchTotal a b junk fuel alo alo blo blo = 0 := by
  intro fuel alo blo
  cases fuel with
  | zero => rfl
  | succ f =>
    rw [matchTotal]
    have hflm : findLongestMatch a b junk alo alo blo blo = (alo, blo, 0) := by
      simp only [findLongestMatch, Nat.sub_self, List.range'_zero, scanRows, extLeft]
      rw [extLeftGo_stop a b alo blo alo alo blo 0 (by omega)]
      simp only [extRight]
      rw [extRightGo_stop a b alo blo alo blo (alo - (alo + 0)) 0 (by omega)]
    rw [hflm]
    simp

theorem smTotal_self (a : List Char) : smTotal a a = a.length := by
  rw [smTotal]
  rw [show a.length + a.length + 1 = (a.length + a.length) + 1 from rfl]
  rw [matchTotal]
  rw [flm_self a (popularJunk a) a.length]
  by_cases hn : a.length = 0
  · simp [hn]
  · rw [if_neg (by simpa using hn)]
    simp only [Nat.zero_add]
    rw [matchTotal_same_range, matchTotal_same_range]
    omega

theorem scanRows_best_bounds (a b : List Char) (junk : Char → Bool)
    (alo ahi blo bhi : Nat) (ha : alo ≤ ahi) (hb : blo ≤ bhi) :
    let best := scanRows (npRun a b junk ahi bhi) (List.range' alo (ahi - alo))
      (List.range' blo (bhi - blo)) (alo, blo, 0)
    alo ≤ best.1 ∧ blo ≤ best.2.1 ∧ best.1 + best.2.2 ≤ ahi ∧ best.2.1 + best.2.2 ≤ bhi := by
  intro best
  rcases scanRows_cases (npRun a b junk ahi bhi) (List.range' alo (ahi - alo))
      (List.range' blo (bhi - blo)) (alo, blo, 0) with hc | ⟨i, hi, j, hj, hc⟩
  · have h1 : best.1 = alo := congrArg (fun p => p.1) hc
    have h2 : best.2.1 = blo := congrArg (fun p => p.2.1) hc
    have h3 : best.2.2 = 0 := congrArg (fun p => p.2.2) hc
    refine ⟨?_, ?_, ?_, ?_⟩ <;> omega
  · have h1 : best.1 = i := congrArg (fun p => p.1) hc
    have h2 : best.2.1 = j := congrArg (fun p => p.2.1) hc
    have h3 : best.2.2 = npRun a b junk ahi bhi i j := congrArg (fun p => p.2.2) hc
    have hin := List.mem_range'_1.1 hi
    have hjn := List.mem_range'_1.1 hj
    have h4 := npRun_add_le_left a b junk ahi bhi i j (by omega)
    have h5 := npRun_add_le_right a b junk ahi bhi i j (by omega)
    refine ⟨?_, ?_, ?_, ?_⟩ <;> omega

theorem extLeftGo_bounds (a b : List Char) (alo blo : Nat) :
    ∀ fuel bi bj bk, alo ≤ bi → blo ≤ bj →
      let res := extLeftGo a b alo blo fuel bi bj bk
      alo ≤ res.1 ∧ blo ≤ res.2.1 ∧ res.1 + res.2.2 = bi + bk ∧ res.2.1 + res.2.2 = bj + bk := by
  intro fuel
  induction fuel with
  | zero => intro bi bj bk h1 h2; exact ⟨h1, h2, rfl, rfl⟩
  | succ f ih =>
    intro bi bj bk h1 h2
    intro res
    rw [show res = extLeftGo a b alo blo (f + 1) bi bj bk from rfl, extLeftGo]
    split
    · rename_i hcond
      have := ih (bi - 1) (bj - 1) (bk + 1) (by omega) (by omega)
      refine ⟨this.1, this.2.1, ?_, ?_⟩
      · rw [this.2.2.1]; omega
      · rw [this.2.2.2]; omega
    · exact ⟨h1, h2, rfl, rfl⟩

theorem extRightGo_bounds (a b : List Char) (ahi bhi bi bj : Nat) :
    ∀ fuel bk, bi + bk ≤ ahi → bj + bk ≤ bhi →
      bk ≤ extRightGo a b ahi bhi bi bj fuel bk ∧
        bi + extRightGo a b ahi bhi bi bj fuel bk ≤ ahi ∧
        bj + extRightGo a b ahi bhi bi bj fuel bk ≤ bhi := by
  intro fuel
  induction fuel with
  | zero => intro bk h1 h2; exact ⟨le_rfl, h1, h2⟩
  | succ f ih =>
    intro bk h1 h2
    rw [extRightGo]
    split
    · rename_i hcond
      have := ih (bk + 1) (by omega) (by omega)
      exact ⟨by omega, this.2.1, this.2.2⟩
    · exact ⟨le_rfl, h1, h2⟩

theorem flm_bounds (a b : List Char) (junk : Char → Bool) (alo ahi blo bhi : Nat)
    (ha : alo ≤ ahi) (hb : blo ≤ bhi) :
    let m := findLongestMatch a b junk alo ahi blo bhi
    alo ≤ m.1 ∧ blo ≤ m.2.1 ∧ m.1 + m.2.2 ≤ ahi ∧ m.2.1 + m.2.2 ≤ bhi := by
  intro m
  have hs := scanRows_best_bounds a b junk alo ahi blo bhi ha hb
  set best := scanRows (npRun a b junk ahi bhi) (List.range' alo (ahi - alo))
    (List.range' blo (bhi - blo)) (alo, blo, 0) with hbest
  have hl := extLeftGo_bounds a b alo blo best.1 best.1 best.2.1 best.2.2 hs.1 hs.2.1
  set left := extLeftGo a b alo blo best.1 best.1 best.2.1 best.2.2 with hleft
  have hr := extRightGo_bounds a b ahi bhi left.1 left.2.1
    (ahi - (left.1 + left.2.2)) left.2.2 (by omega) (by omega)
  have hm : m = (left.1, left.2.1,
      extRightGo a b ahi bhi left.1 left.2.1 (ahi - (left.1 + left.2.2)) left.2.2) := by
    rw [show m = findLongestMatch a b junk alo ahi blo bhi from rfl, findLongestMatch]
    rfl
  rw [hm]
  exact ⟨hl.1, hl.2.1, hr.2.1, hr.2.2⟩

theorem matchTotal_le (a b : List Char) (junk : Char → Bool) :
    ∀ fuel alo ahi blo bhi, alo ≤ ahi → blo ≤ bhi →
      matchTotal a b junk fuel alo ahi blo bhi ≤ ahi - alo ∧
        matchTotal a b junk fuel alo ahi blo bhi ≤ bhi - blo := by
  intro fuel
  induction fuel with
  | zero => intro alo ahi blo bhi _ _; exact ⟨Nat.zero_le _, Nat.zero_le _⟩
  | succ f ih =>
    intro alo ahi blo bhi ha hb
    have hfb := flm_bounds a b junk alo ahi blo bhi ha hb
    rw [matchTotal]
    set m := findLongestMatch a b junk alo ahi blo bhi with hmdef
    split
    · exact ⟨Nat.zero_le _, Nat.zero_le _⟩
    · have h1 := ih alo m.1 blo m.2.1 hfb.1 hfb.2.1
      have h2 := ih (m.1 + m.2.2) ahi (m.2.1 + m.2.2) bhi hfb.2.2.1 hfb.2.2.2
      constructor
      · have := h1.1
        have := h2.1
        omega
      · have := h1.2
        have := h2.2
        omega

theorem smTotal_le (a b : List Char) : smTotal a b ≤ a.length ∧ smTotal a b ≤ b.length := by
  have := matchTotal_le a b (popularJunk b) (a.length + b.length + 1) 0 a.length 0 b.length
    (Nat.zero_le _) (Nat.zero_le _)
  simpa [smTotal] using this

theorem ratioQ_nonneg (a b : List Char) : 0 ≤ ratioQ a b := by
  rw [ratioQ]
  split
  · exact zero_le_one
  · positivity

theorem ratioQ_le_one (a b : List Char) : ratioQ a b ≤ 1 := by
  rw [ratioQ]
  split
  · exact le_rfl
  · rename_i hT
    rw [div_le_one (by exact_mod_cast Nat.pos_of_ne_zero hT)]
    have h := smTotal_le a b
    have : 2 * smTotal a b ≤ a.length + b.length := by omega
    exact_mod_cast this

theorem ratioQ_self (a : List Char) (h : a ≠ []) : ratioQ a a = 1 := by
  have hlen : a.length ≠ 0 := fun hc => h (List.length_eq_zero.1 hc)
  rw [ratioQ, if_neg (by omega), smTotal_self]
  have hq : ((a.length : ℚ) + a.length) = 2 * a.length := by ring
  rw [hq]
  exact div_self (mul_ne_zero two_ne_zero (by exact_mod_cast hlen))

theorem string_ne_empty_data {s : String} (h : s ≠ "") : s.data ≠ [] := by
  intro hc
  apply h
  cases s
  simp_all

theorem calculate_similarity_nonneg (s t : String) : 0 ≤ calculate_similarity s t := by
  rw [calculate_similarity]
  split
  · exact le_rfl
  · exact ratioQ_nonneg _ _

theorem calculate_similarity_le_one (s t : String) : calculate_similarity s t ≤ 1 := by
  rw [calculate_similarity]
  split
  · exact zero_le_one
  · exact ratioQ_le_one _ _

theorem calculate_similarity_self (s : String) (h : s ≠ "") :
    calculate_similarity s s = 1 := by
  rw [calculate_similarity, if_neg (by simp [h])]
  refine ratioQ_self _ ?_
  have := string_ne_empty_data h
  simp only [pyLower, String.toList]
  simpa using this

theorem rhe_nonneg (x : ℚ) (h : 0 ≤ x) : 0 ≤ rhe x := by
  rw [rhe]
  have hf : (0 : ℤ) ≤ ⌊x⌋ := Int.floor_nonneg.2 h
  split
  · exact hf
  · split
    · omega
    · split <;> omega

theorem rhe_le (x : ℚ) (B : ℤ) (h : x ≤ B) : rhe x ≤ B := by
  rw [rhe]
  have hfle : (⌊x⌋ : ℚ) ≤ x := Int.floor_le x
  have hf : ⌊x⌋ ≤ B := by
    have := Int.floor_le_floor h
    simpa using this
  by_cases h1 : x - ⌊x⌋ < 1 / 2
  · rw [if_pos h1]
    exact hf
  · rw [if_neg h1]
    by_cases h2 : (1 : ℚ) / 2 < x - ⌊x⌋
    · rw [if_pos h2]
      have hlt : (⌊x⌋ : ℚ) < B := by linarith
      have : ⌊x⌋ < B := by exact_mod_cast hlt
      omega
    · rw [if_neg h2]
      have hx : x - ⌊x⌋ = 1 / 2 := le_antisymm (not_lt.1 h2) (not_lt.1 h1)
      have hlt : (⌊x⌋ : ℚ) < B := by linarith
      have hltZ : ⌊x⌋ < B := by exact_mod_cast hlt
      split <;> omega

theorem round1_nonneg (q : ℚ) (h : 0 ≤ q) : 0 ≤ round1 q := by
  rw [round1]
  have := rhe_nonneg (q * 10) (by linarith)
  have hc : (0 : ℚ) ≤ (rhe (q * 10) : ℚ) := by exact_mod_cast this
  linarith

theorem round1_le_100 (q : ℚ) (h : q ≤ 100) : round1 q ≤ 100 := by
  rw [round1]
  have := rhe_le (q * 10) 1000 (by push_cast; linarith)
  have hc : ((rhe (q * 10) : ℚ)) ≤ 1000 := by exact_mod_cast this
  linarith

/-! ## C9/C10: report structure -/

theorem modifiedIdx_spec (A B : List Clause) :
    ∀ (ms : List (Nat × Nat × ℚ)) (mi : List (Nat × DiffEntry)),
      modifiedIdx A B ms = some mi →
      ((mi.map Prod.fst).Sublist (ms.map fun p => p.1)) ∧
      ∀ p ∈ mi, ∃ i j s sev msg, (i, j, s) ∈ ms ∧
        p = (i, mkModified i (clauseAt A i) (clauseAt B j) sev msg s) := by
  intro ms
  induction ms with
  | nil =>
    intro mi h
    rw [modifiedIdx] at h
    cases h
    exact ⟨List.Sublist.refl _, by simp⟩
  | cons q rest ih =>
    rcases q with ⟨i, j, s⟩
    intro mi h
    rw [modifiedIdx] at h
    by_cases hs : s < 49 / 50
    · rw [if_pos hs] at h
      cases hdet : detect_risk_patterns (clauseAt A i).content (clauseAt B j).content
          (pyOr (clauseAt A i).title (clauseAt B j).title) with
      | none => rw [hdet] at h; cases h
      | some sm =>
        rcases sm with ⟨sev, msg⟩
        rw [hdet] at h
        cases hrec : modifiedIdx A B rest with
        | none => rw [hrec] at h; cases h
        | some t =>
          rw [hrec] at h
          cases h
          obtain ⟨hsub, helem⟩ := ih t hrec
          constructor
          · simpa using List.Sublist.cons₂ i hsub
          · intro p hp
            rcases List.mem_cons.1 hp with rfl | hmem
            · exact ⟨i, j, s, sev, msg, List.mem_cons_self _ _, rfl⟩
            · obtain ⟨i', j', s', sev', msg', hin, hpe⟩ := helem p hmem
              exact ⟨i', j', s', sev', msg', List.mem_cons_of_mem _ hin, hpe⟩
    · rw [if_neg hs] at h
      obtain ⟨hsub, helem⟩ := ih mi h
      constructor
      · exact hsub.trans (List.sublist_cons_self _ _)
      · intro p hp
        obtain ⟨i', j', s', sev', msg', hin, hpe⟩ := helem p hp
        exact ⟨i', j', s', sev', msg', List.mem_cons_of_mem _ hin, hpe⟩

theorem filterMap_fst_sublist {α β : Type} (f : Nat × α → Option (Nat × β))
    (hf : ∀ p q, f p = some q → q.1 = p.1) :
    ∀ l : List (Nat × α), ((l.filterMap f).map Prod.fst).Sublist (l.map Prod.fst) := by
  intro l
  induction l with
  | nil => simp
  | cons p t ih =>
    cases hfp : f p with
    | none =>
      rw [List.filterMap_cons_none hfp, List.map_cons]
      exact ih.trans (List.sublist_cons_self _ _)
    | some q =>
      rw [List.filterMap_cons_some hfp, List.map_cons, List.map_cons, hf p q hfp]
      exact List.Sublist.cons₂ _ ih

theorem removedIdx_mem (A : List Clause) (mA : List Nat) (p : Nat × DiffEntry)
    (hp : p ∈ removedIdx A mA) : p.2.type = .Removed ∧ p.2.confidence = 100 := by
  rw [removedIdx] at hp
  obtain ⟨q, hq, hfp⟩ := List.mem_filterMap.1 hp
  split at hfp
  · cases hfp
    exact ⟨rfl, rfl⟩
  · cases hfp

theorem addedIdx_mem (B : List Clause) (mB : List Nat) (p : Nat × DiffEntry)
    (hp : p ∈ addedIdx B mB) : p.2.type = .Added ∧ p.2.confidence = 100 := by
  rw [addedIdx] at hp
  obtain ⟨q, hq, hfp⟩ := List.mem_filterMap.1 hp
  split at hfp
  · cases hfp
    exact ⟨rfl, rfl⟩
  · cases hfp

theorem removedIdx_fst_sublist (A : List Clause) (mA : List Nat) :
    ((removedIdx A mA).map Prod.fst).Sublist (A.enum.map Prod.fst) := by
  rw [removedIdx]
  refine filterMap_fst_sublist _ ?_ A.enum
  intro p q h
  split at h
  · cases h; rfl
  · cases h

theorem addedIdx_fst_sublist (B : List Clause) (mB : List Nat) :
    ((addedIdx B mB).map Prod.fst).Sublist (B.enum.map Prod.fst) := by
  rw [addedIdx]
  refine filterMap_fst_sublist _ ?_ B.enum
  intro p q h
  split at h
  · cases h; rfl
  · cases h

theorem removedIdx_pairwise (A : List Clause) (mA : List Nat) :
    (removedIdx A mA).Pairwise fun p q => p.1 < q.1 := by
  have hp : ((removedIdx A mA).map Prod.fst).Pairwise (· < ·) := by
    refine List.Pairwise.sublist (removedIdx_fst_sublist A mA) ?_
    rw [List.enum_map_fst]
    exact List.pairwise_lt_range _
  exact List.pairwise_map.1 hp

theorem addedIdx_pairwise (B : List Clause) (mB : List Nat) :
    (addedIdx B mB).Pairwise fun p q => p.1 < q.1 := by
  have hp : ((addedIdx B mB).map Prod.fst).Pairwise (· < ·) := by
    refine List.Pairwise.sublist (addedIdx_fst_sublist B mB) ?_
    rw [List.enum_map_fst]
    exact List.pairwise_lt_range _
  exact List.pairwise_map.1 hp

theorem generate_diffs_eq (text_a text_b : String) (r : Report)
    (h : generate_diff_report text_a text_b = some r) :
    ∃ mi, modifiedIdx (segment_clauses text_a) (segment_clauses text_b)
        (match_clauses (segment_clauses text_a) (segment_clauses text_b)) = some mi ∧
      r.diffs = mi.map Prod.snd ++
        (removedIdx (segment_clauses text_a)
          ((match_clauses (segment_clauses text_a) (segment_clauses text_b)).map
            fun p => p.1)).map Prod.snd ++
        (addedIdx (segment_clauses text_b)
          ((match_clauses (segment_clauses text_a) (segment_clauses text_b)).map
            fun p => p.2.1)).map Prod.snd := by
  simp only [generate_diff_report] at h
  split at h
  · exact absurd h (by simp)
  · rename_i mi hmi
    cases h
    exact ⟨mi, hmi, rfl⟩

/-- C9: every generated report's diffs sequence is the Modified entries
first (in increasing A-clause index), then the Removed entries (in
increasing A-clause index), then the Added entries (in increasing
B-clause index). -/
theorem c9_diff_ordering (text_a text_b : String) (r : Report)
    (h : generate_diff_report text_a text_b = some r) :
    ∃ mi,
      modifiedIdx (segment_clauses text_a) (segment_clauses text_b)
        (match_clauses (segment_clauses text_a) (segment_clauses text_b)) = some mi ∧
      r.diffs = mi.map Prod.snd ++
        (removedIdx (segment_clauses text_a)
          ((match_clauses (segment_clauses text_a) (segment_clauses text_b)).map
            fun p => p.1)).map Prod.snd ++
        (addedIdx (segment_clauses text_b)
          ((match_clauses (segment_clauses text_a) (segment_clauses text_b)).map
            fun p => p.2.1)).map Prod.snd ∧
      (∀ p ∈ mi, p.2.type = .Modified) ∧ (mi.Pairwise fun p q => p.1 < q.1) ∧
      (∀ p ∈ removedIdx (segment_clauses text_a)
          ((match_clauses (segment_clauses text_a) (segment_clauses text_b)).map
            fun p => p.1), p.2.type = .Removed) ∧
      ((removedIdx (segment_clauses text_a)
          ((match_clauses (segment_clauses text_a) (segment_clauses text_b)).map
            fun p => p.1)).Pairwise fun p q => p.1 < q.1) ∧
      (∀ p ∈ addedIdx (segment_clauses text_b)
          ((match_clauses (segment_clauses text_a) (segment_clauses text_b)).map
            fun p => p.2.1), p.2.type = .Added) ∧
      ((addedIdx (segment_clauses text_b)
          ((match_clauses (segment_clauses text_a) (segment_clauses text_b)).map
            fun p => p.2.1)).Pairwise fun p q => p.1 < q.1) := by
  obtain ⟨mi, hmi, hdiffs⟩ := generate_diffs_eq text_a text_b r h
  obtain ⟨hsub, helem⟩ := modifiedIdx_spec _ _ _ mi hmi
  refine ⟨mi, hmi, hdiffs, ?_, ?_, ?_, removedIdx_pairwise _ _, ?_, addedIdx_pairwise _ _⟩
  · intro p hp
    obtain ⟨i, j, s, sev, msg, hin, hpe⟩ := helem p hp
    rw [hpe]
    rfl
  · have hms : ((match_clauses (segment_clauses text_a) (segment_clauses text_b)).map
        fun p : Nat × Nat × ℚ => p.1).Pairwise (· < ·) := by
      refine List.pairwise_map.2 ?_
      rw [match_clauses]
      exact matchOuter_fst_pairwise _ _ 0 []
    have := List.Pairwise.sublist hsub hms
    exact List.pairwise_map.1 this
  · intro p hp
    exact (removedIdx_mem _ _ p hp).1
  · intro p hp
    exact (addedIdx_mem _ _ p hp).1

theorem c9_diff_ordering_w :
    ((generate_diff_report "a" "b").map Report.diffs).getD [] =
      ((modifiedIdx (segment_clauses "a") (segment_clauses "b")
        (match_clauses (segment_clauses "a") (segment_clauses "b"))).getD []).map Prod.snd ++
      (removedIdx (segment_clauses "a")
        ((match_clauses (segment_clauses "a") (segment_clauses "b")).map
          fun p => p.1)).map Prod.snd ++
      (addedIdx (segment_clauses "b")
        ((match_clauses (segment_clauses "a") (segment_clauses "b")).map
          fun p => p.2.1)).map Prod.snd := by
  cases hg : generate_diff_report "a" "b" with
  | none => exact absurd hg (by decide)
  | some r =>
    obtain ⟨mi, hmi, hdiffs, -⟩ := c9_diff_ordering "a" "b" r hg
    simp [hmi, hdiffs]

/-- C10: every diff entry of a generated report has confidence in
[0, 100]; Added and Removed entries have confidence exactly 100, and each
Modified entry's confidence is its matched pair's stored (content)
similarity times 100, rounded to one decimal place. -/
theorem c10_confidence (text_a text_b : String) (r : Report)
    (h : generate_diff_report text_a text_b = some r) :
    ∀ d ∈ r.diffs,
      (0 ≤ d.confidence ∧ d.confidence ≤ 100) ∧
      ((d.type = .Added ∨ d.type = .Removed) → d.confidence = 100) ∧
      (d.type = .Modified → ∃ i j s,
        (i, j, s) ∈ match_clauses (segment_clauses text_a) (segment_clauses text_b) ∧
        d.confidence = round1 (s * 100)) := by
  obtain ⟨mi, hmi, hdiffs⟩ := generate_diffs_eq text_a text_b r h
  obtain ⟨hsub, helem⟩ := modifiedIdx_spec _ _ _ mi hmi
  intro d hd
  rw [hdiffs] at hd
  rcases List.mem_append.1 hd with hd1 | hadd
  · rcases List.mem_append.1 hd1 with hmod | hrem
    · obtain ⟨p, hp, rfl⟩ := List.mem_map.1 hmod
      obtain ⟨i, j, s, sev, msg, hin, hpe⟩ := helem p hp
      rw [hpe]
      have hsim : s = calculate_similarity (clauseAt (segment_clauses text_a) i).content
          (clauseAt (segment_clauses text_b) j).content := by
        rw [match_clauses] at hin
        exact (matchOuter_sim _ _ _ 0 [] (fun t => by simp) i j s hin).1
      have hs0 : 0 ≤ s := hsim ▸ calculate_similarity_nonneg _ _
      have hs1 : s ≤ 1 := hsim ▸ calculate_similarity_le_one _ _
      refine ⟨⟨?_, ?_⟩, ?_, ?_⟩
      · exact round1_nonneg _ (by nlinarith)
      · exact round1_le_100 _ (by nlinarith)
      · intro hc
        rcases hc with hc | hc <;> cases hc
      · intro _
        exact ⟨i, j, s, hin, rfl⟩
    · obtain ⟨p, hp, rfl⟩ := List.mem_map.1 hrem
      obtain ⟨hty, hconf⟩ := removedIdx_mem _ _ p hp
      refine ⟨⟨by rw [hconf]; norm_num, by rw [hconf]⟩, fun _ => hconf, ?_⟩
      intro hc
      rw [hty] at hc
      cases hc
  · obtain ⟨p, hp, rfl⟩ := List.mem_map.1 hadd
    obtain ⟨hty, hconf⟩ := addedIdx_mem _ _ p hp
    refine ⟨⟨by rw [hconf]; norm_num, by rw [hconf]⟩, fun _ => hconf, ?_⟩
    intro hc
    rw [hty] at hc
    cases hc

theorem c10_confidence_w :
    (((generate_diff_report "a" "b").map Report.diffs).getD []).all
      (fun d => decide (0 ≤ d.confidence) && decide (d.confidence ≤ 100)) = true := by
  cases hg : generate_diff_report "a" "b" with
  | none => exact absurd hg (by decide)
  | some r =>
    simp only [hg, Option.map_some', Option.getD_some]
    rw [List.all_eq_true]
    intro d hd
    have hb := (c10_confidence "a" "b" r hg d hd).1
    simp [hb.1, hb.2]

/-! ## C1: self-comparison -/

theorem segScan_content_ne : ∀ (lines : List String) (cur c : Clause),
    c ∈ segScan lines cur → c.content ≠ "" := by
  intro lines
  induction lines with
  | nil =>
    intro cur c hc
    rw [segScan] at hc
    split at hc
    · rename_i hcur
      rcases List.mem_singleton.1 hc with rfl
      exact hcur
    · cases hc
  | cons line rest ih =>
    intro cur c hc
    rw [segScan] at hc
    split at hc
    · exact ih _ _ hc
    · split at hc
      · rcases List.mem_append.1 hc with h1 | h2
        · split at h1
          · rename_i hcur
            rcases List.mem_singleton.1 h1 with rfl
            exact hcur
          · cases h1
        · exact ih _ _ h2
      · split at hc
        · rcases List.mem_append.1 hc with h1 | h2
          · split at h1
            · rename_i hcur
              rcases List.mem_singleton.1 h1 with rfl
              exact hcur
            · cases h1
          · exact ih _ _ h2
        · split at hc
          · rcases List.mem_append.1 hc with h1 | h2
            · split at h1
              · rename_i hcur
                rcases List.mem_singleton.1 h1 with rfl
                exact hcur
              · cases h1
            · exact ih _ _ h2
          · exact ih _ _ hc

theorem segment_content_ne (T : String) (hT : T ≠ "") :
    ∀ c ∈ segment_clauses T, c.content ≠ "" := by
  intro c hc
  rw [segment_clauses] at hc
  split at hc
  · rcases List.mem_singleton.1 hc with rfl
    exact hT
  · exact segScan_content_ne _ _ c hc

theorem calcSim_le_self_left (x y : String) :
    calculate_similarity x y ≤ calculate_similarity x x := by
  by_cases hx : x = ""
  · subst hx
    rw [calculate_similarity, if_pos (Or.inl rfl), calculate_similarity,
      if_pos (Or.inl rfl)]
  · rw [calculate_similarity_self x hx]
    exact calculate_similarity_le_one x y

theorem innerScan_skip (a : Clause) : ∀ (pre suf : List Clause) (j0 : Nat)
    (used : List Nat) (s : ℚ) (best : Option (Nat × Clause)),
    (∀ t, t < pre.length → (j0 + t) ∈ used) →
    innerScan a (pre ++ suf) j0 used s best = innerScan a suf (j0 + pre.length) used s best := by
  intro pre
  induction pre with
  | nil =>
    intro suf j0 used s best _
    simp
  | cons p pre ih =>
    intro suf j0 used s best hused
    have h0 : j0 ∈ used := by
      have := hused 0 (by simp)
      simpa using this
    rw [List.cons_append, innerScan, if_pos h0]
    rw [ih suf (j0 + 1) used s best (fun t ht => by
      have := hused (t + 1) (by simp; omega)
      rwa [show j0 + (t + 1) = j0 + 1 + t by omega] at this)]
    simp only [List.length_cons]
    rw [show j0 + 1 + pre.length = j0 + (pre.length + 1) by omega]

theorem innerScan_keep (a : Clause) (hnum : a.number = "") :
    ∀ (bs : List Clause) (j0 : Nat) (used : List Nat) (s : ℚ) (jb : Nat × Clause),
      (∀ b : Clause, calculate_similarity a.title b.title * (1 / 2) +
        calculate_similarity a.content b.content * (1 / 2) ≤ s) →
      innerScan a bs j0 used s (some jb) = (some jb, s) := by
  intro bs
  induction bs with
  | nil => intro j0 used s jb _; rfl
  | cons b bs ih =>
    intro j0 used s jb hbound
    rw [innerScan]
    split
    · exact ih _ _ _ _ hbound
    · rw [if_neg (by simp [hnum])]
      rw [if_neg (by
        have := hbound b
        intro hc
        exact absurd this (by push_neg; exact hc.1))]
      exact ih _ _ _ _ hbound

theorem innerScan_self_hit (a : Clause) (suf : List Clause) (k : Nat) (used : List Nat)
    (hku : k ∉ used) (hca : a.content ≠ "") :
    (innerScan a (a :: suf) k used 0 none).1 = some (k, a) := by
  rw [innerScan, if_neg hku]
  by_cases hn : a.number ≠ "" ∧ a.number ≠ "" ∧ a.number = a.number
  · rw [if_pos hn]
  · have hanum : a.number = "" := by
      by_contra hc
      exact hn ⟨hc, hc, rfl⟩
    rw [if_neg hn]
    have hc1 : calculate_similarity a.content a.content = 1 :=
      calculate_similarity_self _ hca
    have hst : 0 ≤ calculate_similarity a.title a.title :=
      calculate_similarity_nonneg _ _
    rw [if_pos (by rw [hc1]; constructor <;> nlinarith)]
    rw [innerScan_keep a hanum suf (k + 1) used _ (k, a) (fun b => by
      have h1 := calcSim_le_self_left a.title b.title
      have h2 := calcSim_le_self_left a.content b.content
      nlinarith)]

theorem matchOuter_self (L : List Clause) (hcontent : ∀ c ∈ L, c.content ≠ "") :
    ∀ (rest : List Clause) (k : Nat) (used : List Nat),
      (∀ t, rest.get? t = L.get? (k + t)) →
      (∀ j, j ∈ used ↔ j < k) →
      matchOuter L rest k used = (List.range' k rest.length).map fun i => (i, i, (1 : ℚ)) := by
  intro rest
  induction rest with
  | nil => intro k used _ _; simp [matchOuter]
  | cons a rest ih =>
    intro k used hl hused
    have hk : L.get? k = some a := by
      have := hl 0
      simpa using this.symm
    have hk2 : L[k]? = some a := by rw [← List.get?_eq_getElem?]; exact hk
    obtain ⟨hklen, hLk⟩ := List.getElem?_eq_some.1 hk2
    have hamem : a ∈ L := List.get?_mem hk
    have hca := hcontent a hamem
    have hdrop : L.drop k = a :: L.drop (k + 1) := by
      rw [List.drop_eq_getElem_cons hklen, hLk]
    have hdecomp : L.take k ++ (a :: L.drop (k + 1)) = L := by
      rw [← hdrop, List.take_append_drop]
    have htk : (L.take k).length = k := by
      rw [List.length_take]
      omega
    have hscan1 : (innerScan a L 0 used 0 none).1 = some (k, a) := by
      conv_lhs => rw [← hdecomp]
      rw [innerScan_skip a (L.take k) _ 0 used 0 none (fun t ht => by
        rw [htk] at ht
        exact (hused _).2 (by omega))]
      rw [htk, Nat.zero_add]
      exact innerScan_self_hit a (L.drop (k + 1)) k used
        (fun hc => by have := (hused k).1 hc; omega) hca
    rcases hscan : innerScan a L 0 used 0 none with ⟨ob, s2⟩
    have hob : ob = some (k, a) := by
      rw [hscan] at hscan1
      exact hscan1
    subst hob
    rw [matchOuter, hscan]
    dsimp only
    rw [calculate_similarity_self _ hca]
    rw [ih (k + 1) (k :: used)
      (fun t => by
        have := hl (t + 1)
        rwa [show k + (t + 1) = k + 1 + t by omega] at this)
      (fun j => by rw [List.mem_cons, hused j]; omega)]
    simp only [List.length_cons, List.range'_succ, List.map_cons]

theorem match_clauses_self (L : List Clause) (hcontent : ∀ c ∈ L, c.content ≠ "") :
    match_clauses L L = (List.range' 0 L.length).map fun i => (i, i, (1 : ℚ)) := by
  rw [match_clauses]
  exact matchOuter_self L hcontent L 0 [] (fun t => by simp) (fun j => by simp)

theorem modifiedIdx_ones (A B : List Clause) :
    ∀ l : List Nat, modifiedIdx A B (l.map fun i => (i, i, (1 : ℚ))) = some [] := by
  intro l
  induction l with
  | nil => rfl
  | cons i l ih =>
    rw [List.map_cons, modifiedIdx, if_neg (by norm_num)]
    exact ih

theorem removedIdx_nil (A : List Clause) (mA : List Nat)
    (hall : ∀ i, i < A.length → i ∈ mA) : removedIdx A mA = [] := by
  rw [removedIdx, List.filterMap_eq_nil]
  intro p hp
  have hlt : p.1 ∈ A.enum.map Prod.fst := List.mem_map_of_mem _ hp
  rw [List.enum_map_fst] at hlt
  have := List.mem_range.1 hlt
  rw [if_neg (by simp [hall _ this])]

theorem addedIdx_nil (B : List Clause) (mB : List Nat)
    (hall : ∀ i, i < B.length → i ∈ mB) : addedIdx B mB = [] := by
  rw [addedIdx, List.filterMap_eq_nil]
  intro p hp
  have hlt : p.1 ∈ B.enum.map Prod.fst := List.mem_map_of_mem _ hp
  rw [List.enum_map_fst] at hlt
  have := List.mem_range.1 hlt
  rw [if_neg (by simp [hall _ this])]

/-- C1 counterexample: comparing the empty text against itself yields a
report with riskScore 10 and one (Modified) diff — the fallback Document
clause has empty content, whose self-similarity is 0, so it is reported
as a significant change — refuting the claim for the text `""`. -/
theorem c1_empty_counter :
    (generate_diff_report "" "").map Report.riskScore = some 10 ∧
    (generate_diff_report "" "").map (fun r => r.diffs.length) = some 1 :=
  ⟨by decide, by decide⟩

/-- C1 (amended): for every nonempty text T, comparing T against itself
yields a report with riskScore 0 and an empty diffs sequence.  (For the
empty text the fallback clause has empty content, `calculate_similarity`
returns 0 for empty operands, and a Modified diff with a positive score
is produced.) -/
theorem c1_self_report (T : String) (hT : T ≠ "") :
    ∃ r, generate_diff_report T T = some r ∧ r.riskScore = 0 ∧ r.diffs = [] := by
  have hcontent := segment_content_ne T hT
  have hms := match_clauses_self (segment_clauses T) hcontent
  have hmod : modifiedIdx (segment_clauses T) (segment_clauses T)
      (match_clauses (segment_clauses T) (segment_clauses T)) = some [] := by
    rw [hms]
    exact modifiedIdx_ones _ _ _
  have hmA : ((match_clauses (segment_clauses T) (segment_clauses T)).map
      fun p => p.1) = List.range' 0 (segment_clauses T).length := by
    rw [hms]
    simp [List.map_map, Function.comp_def]
  have hmB : ((match_clauses (segment_clauses T) (segment_clauses T)).map
      fun p => p.2.1) = List.range' 0 (segment_clauses T).length := by
    rw [hms]
    simp [List.map_map, Function.comp_def]
  have hrem : removedIdx (segment_clauses T)
      ((match_clauses (segment_clauses T) (segment_clauses T)).map fun p => p.1) = [] := by
    rw [hmA]
    exact removedIdx_nil _ _ (fun i hi => List.mem_range'_1.2 ⟨Nat.zero_le _, by omega⟩)
  have hadd : addedIdx (segment_clauses T)
      ((match_clauses (segment_clauses T) (segment_clauses T)).map fun p => p.2.1) = [] := by
    rw [hmB]
    exact addedIdx_nil _ _ (fun i hi => List.mem_range'_1.2 ⟨Nat.zero_le _, by omega⟩)
  simp only [generate_diff_report, hmod, hrem, hadd, List.map_nil, List.append_nil]
  exact ⟨_, rfl, rfl, rfl⟩

theorem c1_self_report_w :
    ((generate_diff_report "hello" "hello").map Report.riskScore).getD 1 = 0 ∧
    ((generate_diff_report "hello" "hello").map fun r => r.diffs.length).getD 1 = 0 := by
  obtain ⟨r, hr, hs, hd⟩ := c1_self_report "hello" (by decide)
  rw [hr]
  simp [hs, hd]
